import Mathlib

/-!
Shallow embedding of the WG-Go peer-limiter core
(`src/peer_limiter_daemon.py`, `src/modules/PeerLimits.py`) and proofs about it.

Modelling conventions:
* Python `datetime` values (all timezone-aware, second precision in this code
  base) and Unix timestamps are modelled as `Int` seconds; `timedelta(seconds=k)`
  subtraction becomes integer subtraction.
* Python integers are unbounded, hence `Int`.
* Python `dict`s are insertion-ordered association lists with unique keys;
  `dict.get` / item assignment / `del` are the `assocGet` / `assocSet` /
  `assocPop` operations below.
* Raising an exception is modelled as `Except.error` carrying the message.
* Mutation of `self` is modelled by returning the updated object.
-/

namespace WGGo

/-! ## Python string primitives -/

/-- The whitespace characters stripped by Python `str.strip()` (ASCII range;
exotic Unicode space code points are not modelled). -/
def pySpace (c : Char) : Bool :=
  c = ' ' || c = '\t' || c = '\n' || c = '\r' || c = '\x0b' || c = '\x0c'

/-- Strip elements satisfying `p` from both ends of a list. -/
def stripList (p : Char → Bool) (l : List Char) : List Char :=
  ((l.dropWhile p).reverse.dropWhile p).reverse

/-- Python `str.strip()`. -/
def pyStrip (s : String) : String := ⟨stripList pySpace s.data⟩

/-- ASCII lower-casing of one character. -/
def lowerChar (c : Char) : Char :=
  if 'A' ≤ c ∧ c ≤ 'Z' then Char.ofNat (c.toNat + 32) else c

/-- Python `str.lower()` (ASCII range; full Unicode case mapping not modelled). -/
def pyLower (s : String) : String := ⟨s.data.map lowerChar⟩

/-- Decimal digit value of a character, if any. -/
def pyDigit? (c : Char) : Option Nat :=
  if '0' ≤ c ∧ c ≤ '9' then some (c.toNat - '0'.toNat) else none

/-- Digit tail of a Python integer literal: decimal digits where a single
underscore may separate two digits. -/
def digitsValAux : Nat → List Char → Option Nat
  | acc, [] => some acc
  | acc, c :: rest =>
    match pyDigit? c with
    | some d => digitsValAux (acc * 10 + d) rest
    | none =>
      if c = '_' then
        match rest with
        | [] => none
        | r :: rest2 =>
          match pyDigit? r with
          | some d => digitsValAux (acc * 10 + d) rest2
          | none => none
      else none

/-- Nonempty run of decimal digits (with single underscores between digits). -/
def digitsVal : List Char → Option Nat
  | [] => none
  | c :: rest =>
    match pyDigit? c with
    | some d => digitsValAux d rest
    | none => none

/-- Python `int(str)`: strip whitespace, optional sign, decimal digits with
single underscores between digits; anything else raises `ValueError`, modelled
as `none`. (Unicode digits are not modelled.) -/
def pyParseInt (s : String) : Option Int :=
  match stripList pySpace s.data with
  | '+' :: rest => (digitsVal rest).map (fun n => (n : Int))
  | '-' :: rest => (digitsVal rest).map (fun n => -(n : Int))
  | rest => (digitsVal rest).map (fun n => (n : Int))

/-- First occurrence of the separator `sep` inside a list: Python
`str.partition`, returning the parts before and after the separator. `none`
when the separator does not occur. -/
def subSplit (sep : List Char) : List Char → Option (List Char × List Char)
  | [] => if sep.isPrefixOf ([] : List Char) then some ([], []) else none
  | x :: xs =>
    if sep.isPrefixOf (x :: xs) then some ([], (x :: xs).drop sep.length)
    else
      match subSplit sep xs with
      | some (pre, post) => some (x :: pre, post)
      | none => none

/-- Split at the last occurrence of the character `c`: Python `str.rpartition`
with a one-character separator. `none` when `c` does not occur. -/
def rsplitChar (c : Char) : List Char → Option (List Char × List Char)
  | [] => none
  | x :: xs =>
    match rsplitChar c xs with
    | some (pre, post) => some (x :: pre, post)
    | none => if x = c then some ([], xs) else none

/-- Python `str.startswith("[")`. -/
def startsWithBracket (s : String) : Bool :=
  match s.data with
  | c :: _ => c == '['
  | [] => false

/-! ## `split_endpoint` (peer_limiter_daemon.py, lines 28-41) -/

/-- `split_endpoint`: strip the string, reject empty or `"(none)"`
(case-insensitively); bracketed strings are split on the first `"]:"`
(`partition`), other strings at the last `':'` (`rpartition`); reject an empty
host or port part; `int(port)` failure (modelled by `pyParseInt`) rejects. -/
def split_endpoint (endpoint0 : String) : Option (String × Int) :=
  let endpoint := pyStrip endpoint0
  if endpoint = "" ∨ pyLower endpoint = "(none)" then none
  else
    let hp : String × String :=
      if startsWithBracket endpoint then
        match subSplit [']', ':'] (endpoint.data.drop 1) with
        | some (pre, post) => (⟨pre⟩, ⟨post⟩)
        | none => (⟨endpoint.data.drop 1⟩, "")
      else
        match rsplitChar ':' endpoint.data with
        | some (pre, post) => (⟨pre⟩, ⟨post⟩)
        | none => ("", endpoint)
    if hp.1 = "" ∨ hp.2 = "" then none
    else (pyParseInt hp.2).map (fun n => (hp.1, n))

/-! ## Peer limit settings (modules/PeerLimits.py) -/

/-- `PeerLimitPolicy` enum. -/
inductive PeerLimitPolicy
  | NEW_WINS
  | OLD_WINS
deriving DecidableEq, Repr

/-- `PeerLimitPolicy.from_string`: `None` defaults to `NEW_WINS`; any value that
is not a member of the enum raises
`ValueError("Unsupported peer limit policy: ...")`. -/
def PeerLimitPolicy.from_string (value : Option String) :
    Except String PeerLimitPolicy :=
  match value with
  | none => .ok .NEW_WINS
  | some v =>
    if v = "new_wins" then .ok .NEW_WINS
    else if v = "old_wins" then .ok .OLD_WINS
    else .error ("Unsupported peer limit policy: " ++ v)

/-- `PeerLimitSettings` dataclass (defaults from the module constants). -/
structure PeerLimitSettings where
  max_concurrent : Option Int := none
  policy : PeerLimitPolicy := .NEW_WINS
  ttl_seconds : Int := 180
  grace_seconds : Int := 5
deriving DecidableEq, Repr

/-- A scalar as handed over by the SQL layer: `NULL`, an integer, or a string.
(The Python code also tolerates floats and bytes; those branches are not
modelled.) -/
inductive PyVal
  | vnone
  | vint (n : Int)
  | vstr (s : String)
deriving DecidableEq, Repr

/-- One row of the per-interface settings table, restricted to the four columns
`PeerLimitSettings.from_row` reads. A missing column reads as `NULL`. -/
structure SettingsRow where
  max_concurrent : PyVal := .vnone
  connection_policy : PyVal := .vnone
  session_ttl : PyVal := .vnone
  grace_seconds : PyVal := .vnone
deriving DecidableEq, Repr

/-- How a `PyVal` is passed to `PeerLimitPolicy.from_string`: `NULL` becomes
`None`; an integer is only ever inspected inside the f-string of the error
message, where it renders as its decimal form, so it is modelled as that
string. -/
def PyVal.asPolicyArg : PyVal → Option String
  | .vnone => none
  | .vstr s => some s
  | .vint n => some (toString n)

/-- `PeerLimitSettings.from_row`: coerce a string `max_concurrent` through
`int()`, map non-positive `max_concurrent` to `None` (unlimited), parse the
policy (raising on unknown values), default `session_ttl`/`grace_seconds` for
non-numeric values, and clamp `ttl ≥ 1`, `grace ≥ 0`. -/
def PeerLimitSettings.from_row (row : SettingsRow) :
    Except String PeerLimitSettings := do
  let mc0 : PyVal ←
    match row.max_concurrent with
    | .vstr s =>
      match pyParseInt s with
      | some n => pure (PyVal.vint n)
      | none => Except.error ("invalid literal for int() with base 10: " ++ s)
    | v => pure v
  let mc : Option Int :=
    match mc0 with
    | .vint n => if n ≤ 0 then none else some n
    | _ => none
  let policy ← PeerLimitPolicy.from_string row.connection_policy.asPolicyArg
  let ttl : Int := match row.session_ttl with | .vint n => n | _ => 180
  let grace : Int := match row.grace_seconds with | .vint n => n | _ => 5
  pure { max_concurrent := mc, policy := policy,
         ttl_seconds := max ttl 1, grace_seconds := max grace 0 }

/-- `PeerLimitStore.get_peer_settings`: the SQL machinery is abstracted to
whether the interface table exists and the optional row found for the peer.
A missing table or row yields the defaults; a present row goes through
`from_row`, whose exceptions propagate (there is no handler in the store). -/
def get_peer_settings (table_exists : Bool) (row : Option SettingsRow) :
    Except String PeerLimitSettings :=
  if table_exists then
    match row with
    | none => .ok {}
    | some r => PeerLimitSettings.from_row r
  else .ok {}

/-! ## Session tracker (modules/PeerLimits.py) -/

/-- `PeerSession` dataclass. -/
structure PeerSession where
  endpoint : String
  first_seen : Int
  last_seen : Int
  last_handshake : Option Int := none
  rx_bytes : Int := 0
  tx_bytes : Int := 0
  rx_delta : Int := 0
  tx_delta : Int := 0
deriving DecidableEq, Repr

/-- Insertion-ordered dictionary, as an association list with unique keys. -/
def assocGet {κ α : Type} [DecidableEq κ] (l : List (κ × α)) (k : κ) : Option α :=
  match l with
  | [] => none
  | (k0, v) :: rest => if k0 = k then some v else assocGet rest k

/-- Dictionary item assignment: update in place, or append a new key. -/
def assocSet {κ α : Type} [DecidableEq κ] (l : List (κ × α)) (k : κ) (v : α) :
    List (κ × α) :=
  match l with
  | [] => [(k, v)]
  | (k0, v0) :: rest =>
    if k0 = k then (k0, v) :: rest else (k0, v0) :: assocSet rest k v

/-- Dictionary `pop`/`del`. -/
def assocPop {κ α : Type} [DecidableEq κ] (l : List (κ × α)) (k : κ) :
    List (κ × α) :=
  match l with
  | [] => []
  | (k0, v0) :: rest => if k0 = k then rest else (k0, v0) :: assocPop rest k

/-- The per-key endpoint dictionary of the tracker. -/
abbrev SessionDict := List (String × PeerSession)

/-- `SessionTracker`: `self._sessions`, keyed by `(interface, peer_id)`. -/
structure SessionTracker where
  sessions : List ((String × String) × SessionDict) := []
deriving DecidableEq, Repr

/-- `SessionTracker._expire`: under one key, drop every session whose
`last_seen` is before `now - max(ttl_seconds, 1)`; drop the key when its
dictionary becomes (or is) empty. -/
def SessionTracker.expire (st : SessionTracker) (key : String × String)
    (ttl_seconds now : Int) : SessionTracker :=
  match assocGet st.sessions key with
  | none => st
  | some d =>
    if d.isEmpty then st
    else
      let expiry := now - max ttl_seconds 1
      let kept := d.filter (fun p => !decide (p.2.last_seen < expiry))
      if kept.isEmpty then ⟨assocPop st.sessions key⟩
      else ⟨assocSet st.sessions key kept⟩

/-- `datetime.fromtimestamp` guarded by the truthiness of the raw handshake
value: `None` and `0` both yield `None`. -/
def handshakeFromUnix : Option Int → Option Int
  | some h => if h = 0 then none else some h
  | none => none

/-- The handshake update of `observe`: replace the stored value only when the
observed one is present and strictly greater (or nothing is stored yet). -/
def updatedHandshake (handshake_dt old : Option Int) : Option Int :=
  match handshake_dt, old with
  | some h, none => some h
  | some h, some o => if o < h then some h else some o
  | none, o => o

/-- `SessionTracker.observe`. Expire first; normalize the endpoint; if it is
valid, update the existing session for that endpoint or create a fresh one;
return the updated tracker together with the snapshot list of all sessions
under the key. -/
def SessionTracker.observe (st : SessionTracker) (interface peer_id : String)
    (endpoint : Option String) (latest_handshake : Option Int)
    (rx_bytes tx_bytes : Int) (settings : PeerLimitSettings) (now : Int) :
    SessionTracker × List PeerSession :=
  let key := (interface, peer_id)
  let st1 := st.expire key settings.ttl_seconds now
  let e := pyStrip (endpoint.getD "")
  let d := (assocGet st1.sessions key).getD []
  let d' :=
    if e ≠ "" ∧ pyLower e ≠ "(none)" then
      let handshake_dt := handshakeFromUnix latest_handshake
      match assocGet d e with
      | some existing =>
        let rx_delta := max 0 (rx_bytes - existing.rx_bytes)
        let tx_delta := max 0 (tx_bytes - existing.tx_bytes)
        let new_last_seen :=
          if rx_delta ≠ 0 ∨ tx_delta ≠ 0 then now else existing.last_seen
        assocSet d e { existing with
          rx_bytes := rx_bytes, tx_bytes := tx_bytes,
          rx_delta := rx_delta, tx_delta := tx_delta,
          last_seen := new_last_seen,
          last_handshake := updatedHandshake handshake_dt existing.last_handshake }
      | none =>
        assocSet d e { endpoint := e, first_seen := now, last_seen := now,
                       last_handshake := handshake_dt, rx_bytes := rx_bytes,
                       tx_bytes := tx_bytes, rx_delta := 0, tx_delta := 0 }
    else d
  (⟨assocSet st1.sessions key d'⟩, d'.map Prod.snd)

/-- `SessionTracker.active_sessions`: the sessions under the key whose
`last_seen` is within the TTL window, stably sorted by `last_seen` descending
(Python `list.sort(key=..., reverse=True)`). The Python method performs no
writes, which the embedding reflects by taking the tracker unchanged. -/
def SessionTracker.active_sessions (st : SessionTracker)
    (interface peer_id : String) (settings : PeerLimitSettings) (now : Int) :
    List PeerSession :=
  let ttl_window := now - max settings.ttl_seconds 1
  let d := (assocGet st.sessions (interface, peer_id)).getD []
  let active := (d.map Prod.snd).filter (fun s => decide (ttl_window ≤ s.last_seen))
  active.mergeSort (fun a b => decide (b.last_seen ≤ a.last_seen))

/-- `active_sessions` as a state transformer: the method reads but never
writes `self._sessions`. -/
def SessionTracker.active_sessionsRun (st : SessionTracker)
    (interface peer_id : String) (settings : PeerLimitSettings) (now : Int) :
    SessionTracker × List PeerSession :=
  (st, st.active_sessions interface peer_id settings now)

/-- The `append_unique` inner helper of `allowed_sessions`: thread the
`allowed` list and the `seen` endpoint set through the items in order,
appending only first occurrences of an endpoint. -/
def appendUnique :
    List PeerSession × List String → List PeerSession →
    List PeerSession × List String
  | acc, [] => acc
  | (allowed, seen), s :: rest =>
    if s.endpoint ∈ seen then appendUnique (allowed, seen) rest
    else appendUnique (allowed ++ [s], s.endpoint :: seen) rest

/-- `SessionTracker.allowed_sessions`: unlimited (`None`/`0`) returns the
active list; otherwise grace-window sessions are always admitted, then at most
`remaining` stable sessions in policy order. -/
def SessionTracker.allowed_sessions (st : SessionTracker)
    (interface peer_id : String) (settings : PeerLimitSettings) (now : Int) :
    List PeerSession :=
  let active := st.active_sessions interface peer_id settings now
  match settings.max_concurrent with
  | none => active
  | some m =>
    if m = 0 then active
    else
      let grace_window := now - max settings.grace_seconds 0
      let graceS := active.filter (fun s => decide (grace_window ≤ s.first_seen))
      let stableS := active.filter (fun s => !decide (s ∈ graceS))
      let acc1 := appendUnique ([], []) graceS
      let stable_allowed := acc1.1.filter (fun s => !decide (s ∈ graceS))
      let remaining : Int := max (m - (stable_allowed.length : Int)) 0
      if remaining ≤ 0 then acc1.1
      else
        let ordered :=
          match settings.policy with
          | .NEW_WINS => stableS
          | .OLD_WINS =>
            stableS.mergeSort (fun a b => decide (a.first_seen ≤ b.first_seen))
        (appendUnique acc1 (ordered.take remaining.toNat)).1

/-- `allowed_sessions` as a state transformer: the method reads but never
writes `self._sessions`. -/
def SessionTracker.allowed_sessionsRun (st : SessionTracker)
    (interface peer_id : String) (settings : PeerLimitSettings) (now : Int) :
    SessionTracker × List PeerSession :=
  (st, st.allowed_sessions interface peer_id settings now)

/-- `SessionTracker.prune_peer`. -/
def SessionTracker.prune_peer (st : SessionTracker)
    (interface peer_id : String) : SessionTracker :=
  ⟨assocPop st.sessions (interface, peer_id)⟩

/-- Well-formedness of a per-key dictionary: endpoint keys are unique (a
Python dict) and each stored session's `endpoint` field equals its key
(`observe` only ever stores a session under its own endpoint). -/
def DictWF (d : SessionDict) : Prop :=
  (d.map Prod.fst).Nodup ∧ ∀ p ∈ d, p.2.endpoint = p.1

/-- Well-formedness of a tracker state: unique keys, well-formed dictionaries. -/
def TrackerWF (st : SessionTracker) : Prop :=
  (st.sessions.map Prod.fst).Nodup ∧ ∀ q ∈ st.sessions, DictWF q.2

/-! ## Daemon iteration, per-peer body (peer_limiter_daemon.py, lines 313-353) -/

/-- A Python `set`, modelled as the list of its distinct elements in insertion
order. Only membership, truthiness and difference are used by the code, and
all of them are order-insensitive. -/
abbrev PySet (α : Type) := List α

/-- Python `set.add`. -/
def pysetAdd {α : Type} [DecidableEq α] (s : PySet α) (x : α) : PySet α :=
  if x ∈ s then s else s ++ [x]

/-- Python set difference `s - t`. -/
def pysetDiff {α : Type} [DecidableEq α] (s t : PySet α) : PySet α :=
  s.filter (fun x => !decide (x ∈ t))

/-- `FirewallSyncPlan`. -/
structure FirewallSyncPlan where
  ipv4 : PySet (String × Int)
  ipv6 : PySet (String × Int)
  port : Int
deriving DecidableEq

/-- One record handed to `PeerLimiterStateRepository.upsert_sessions`
(lines 342-352). -/
structure SessionRecord where
  Endpoint : String
  LastHandshake : Option Int
  FirstSeen : Int
  LastSeen : Int
  RxBytes : Int
  TxBytes : Int
  RxDelta : Int
  TxDelta : Int
  IsAllowed : Bool
deriving DecidableEq, Repr

/-- The per-peer body of `PeerLimiterDaemon.iteration` (lines 315-353): observe
the dump entry, compute `active` and `allowed`, fold every active session into
the firewall plan (v6 bucket when the parsed ip contains a colon) and build the
records passed to the state repository, flagging each with membership in the
allowed endpoint set. Returns the updated tracker, the updated plan, the
records, and the peer's over-limit flag. -/
def processPeer (st : SessionTracker) (plan : FirewallSyncPlan)
    (interface peer_id : String) (endpoint : Option String)
    (latest_handshake : Option Int) (rx_bytes tx_bytes : Int)
    (settings : PeerLimitSettings) (now : Int) :
    SessionTracker × FirewallSyncPlan × List SessionRecord × Bool :=
  let ob := st.observe interface peer_id endpoint latest_handshake rx_bytes
      tx_bytes settings now
  let st1 := ob.1
  let active := st1.active_sessions interface peer_id settings now
  let allowed := st1.allowed_sessions interface peer_id settings now
  let allowed_endpoints := allowed.map PeerSession.endpoint
  let over_limit :=
    match settings.max_concurrent with
    | none => false
    | some m => if m = 0 then false else decide (m < (active.length : Int))
  let step := fun (acc : FirewallSyncPlan × List SessionRecord)
      (session : PeerSession) =>
    let plan1 :=
      match split_endpoint session.endpoint with
      | some (ip, port) =>
        if ':' ∈ ip.data then { acc.1 with ipv6 := pysetAdd acc.1.ipv6 (ip, port) }
        else { acc.1 with ipv4 := pysetAdd acc.1.ipv4 (ip, port) }
      | none => acc.1
    (plan1,
     acc.2 ++ [{ Endpoint := session.endpoint,
                 LastHandshake := session.last_handshake,
                 FirstSeen := session.first_seen, LastSeen := session.last_seen,
                 RxBytes := session.rx_bytes, TxBytes := session.tx_bytes,
                 RxDelta := session.rx_delta, TxDelta := session.tx_delta,
                 IsAllowed := decide (session.endpoint ∈ allowed_endpoints) }])
  let pr := active.foldl step (plan, [])
  (st1, pr.1, pr.2, over_limit)

/-! ## Nftables backend (peer_limiter_daemon.py, lines 146-219) -/

/-- An `(ip, port)` firewall set element. -/
abbrev NftElem := String × Int

/-- An emitted `nft` command. Element commands carry the element set being
formatted by `_format_elements`; everything `ensure_interface` runs is a
non-element `admin` command, kept as its word list. -/
inductive NftCmd
  | addElement (set_name : String) (elems : PySet NftElem)
  | deleteElement (set_name : String) (elems : PySet NftElem)
  | admin (words : List String)
deriving DecidableEq

/-- `f"wggo_{interface}_allowed_v4"`. -/
def setNameV4 (interface : String) : String :=
  "wggo_" ++ interface ++ "_allowed_v4"

/-- `f"wggo_{interface}_allowed_v6"`. -/
def setNameV6 (interface : String) : String :=
  "wggo_" ++ interface ++ "_allowed_v6"

/-- The in-memory state of `NftablesBackend`: the set of initialized
interfaces and the remembered current contents of the per-interface sets. -/
structure NftablesBackend where
  initialized : List String := []
  current_v4 : List (String × PySet NftElem) := []
  current_v6 : List (String × PySet NftElem) := []
deriving DecidableEq

/-- `NftablesBackend.ensure_interface`. The `nft list ...` probes ask the
external firewall whether an object already exists; that environment is the
oracle `probe`. Only non-element `admin` commands are ever emitted here, and
nothing at all on an already-initialized interface. -/
def NftablesBackend.ensure_interface (b : NftablesBackend)
    (probe : List String → Bool) (interface : String) (port : Int) :
    NftablesBackend × List NftCmd :=
  if interface ∈ b.initialized then (b, [])
  else
    let chain := "wggo_" ++ interface
    let cmds :=
      (if probe ["list", "set", setNameV4 interface] then []
       else [NftCmd.admin ["add", "set", setNameV4 interface]]) ++
      (if probe ["list", "set", setNameV6 interface] then []
       else [NftCmd.admin ["add", "set", setNameV6 interface]]) ++
      (if probe ["list", "chain", chain] then []
       else [NftCmd.admin ["add", "chain", chain],
             NftCmd.admin ["add", "rule", chain, toString port, "v4", "return"],
             NftCmd.admin ["add", "rule", chain, toString port, "v6", "return"],
             NftCmd.admin ["add", "rule", chain, toString port, "drop"]])
    ({ b with initialized := b.initialized ++ [interface] }, cmds)

/-- `NftablesBackend._sync_set` (lines 200-207): diff the desired against the
remembered current elements, emit at most one `add element` and one
`delete element` command, and return the new current value (the desired set). -/
def syncSet (set_name : String) (desired current : PySet NftElem) :
    List NftCmd × PySet NftElem :=
  let to_add := pysetDiff desired current
  let to_remove := pysetDiff current desired
  ((if to_add = [] then [] else [NftCmd.addElement set_name to_add]) ++
   (if to_remove = [] then [] else [NftCmd.deleteElement set_name to_remove]),
   desired)

/-- One pass of the `for interface, plan in plans.items()` loop body of
`NftablesBackend.sync` (lines 210-215): ensure the skeleton, then diff the v4
and the v6 set against the remembered current elements. -/
def syncStep (probe : List String → Bool) (b : NftablesBackend)
    (interface : String) (plan : FirewallSyncPlan) :
    NftablesBackend × List NftCmd :=
  let e := b.ensure_interface probe interface plan.port
  let r4 := syncSet (setNameV4 interface) plan.ipv4
      ((assocGet e.1.current_v4 interface).getD [])
  let r6 := syncSet (setNameV6 interface) plan.ipv6
      ((assocGet e.1.current_v6 interface).getD [])
  ({ e.1 with current_v4 := assocSet e.1.current_v4 interface r4.2,
              current_v6 := assocSet e.1.current_v6 interface r6.2 },
   e.2 ++ r4.1 ++ r6.1)

/-- The `for` loop of `NftablesBackend.sync` over the plans dictionary
(insertion order). -/
def syncGo (probe : List String → Bool) (b : NftablesBackend) :
    List (String × FirewallSyncPlan) → NftablesBackend × List NftCmd
  | [] => (b, [])
  | (interface, plan) :: rest =>
    let hd := syncStep probe b interface plan
    let tail := syncGo probe hd.1 rest
    (tail.1, hd.2 ++ tail.2)

/-- `NftablesBackend.sync` (lines 209-215). -/
def NftablesBackend.sync (b : NftablesBackend) (probe : List String → Bool)
    (plans : List (String × FirewallSyncPlan)) :
    NftablesBackend × List NftCmd :=
  syncGo probe b plans

/-- Is this command an `add element` for the given set? -/
def NftCmd.isAddFor (c : NftCmd) (name : String) : Bool :=
  match c with
  | .addElement n _ => n = name
  | _ => false

/-- Is this command a `delete element` for the given set? -/
def NftCmd.isDelFor (c : NftCmd) (name : String) : Bool :=
  match c with
  | .deleteElement n _ => n = name
  | _ => false

/-- The set name of an element command, if any. -/
def NftCmd.elemName : NftCmd → Option String
  | .addElement n _ => some n
  | .deleteElement n _ => some n
  | .admin _ => none

/-- Executable duplicate-freeness check, used only to decide `List.Nodup` on
concrete states. -/
def distinctList {α : Type} [DecidableEq α] : List α → Bool
  | [] => true
  | x :: xs => !decide (x ∈ xs) && distinctList xs

theorem distinctList_iff {α : Type} [DecidableEq α] (l : List α) :
    distinctList l = true ↔ l.Nodup := by
  induction l with
  | nil => simp [distinctList]
  | cons x xs ih =>
    rw [List.nodup_cons, ← ih]
    simp [distinctList]

instance (d : SessionDict) : Decidable (DictWF d) :=
  decidable_of_iff
    (distinctList (d.map Prod.fst) = true ∧ ∀ p ∈ d, p.2.endpoint = p.1)
    (by rw [distinctList_iff]; exact Iff.rfl)

instance (st : SessionTracker) : Decidable (TrackerWF st) :=
  decidable_of_iff
    (distinctList (st.sessions.map Prod.fst) = true ∧
      ∀ q ∈ st.sessions, DictWF q.2)
    (by rw [distinctList_iff]; exact Iff.rfl)

/-! ## C2: unknown `connection_policy` strings -/

/-- C2, counterexample: reading the settings of a peer whose row carries the
unrecognized policy string `"sticky"` does not return the default settings;
it raises (`ValueError`, modelled as `Except.error`). The claim that the
limiter warns and falls back to defaults is therefore false on this code. -/
theorem get_peer_settings_error_on_unknown_policy :
    get_peer_settings true (some { connection_policy := .vstr "sticky" }) =
      Except.error "Unsupported peer limit policy: sticky" := by rfl

/-- C2 (amended): for every settings row whose `connection_policy` is an
unrecognized string, `get_peer_settings` never returns settings (in
particular not the defaults): the `ValueError` raised by
`PeerLimitPolicy.from_string`, with message `Unsupported peer limit
policy: ...`, propagates out of the store. -/
theorem get_peer_settings_raises_on_unknown_policy (row : SettingsRow)
    (s : String) (hpol : row.connection_policy = .vstr s)
    (h1 : s ≠ "new_wins") (h2 : s ≠ "old_wins") :
    (∀ st, get_peer_settings true (some row) ≠ Except.ok st) ∧
      PeerLimitPolicy.from_string (some s) =
        Except.error ("Unsupported peer limit policy: " ++ s) := by
  have hfs : PeerLimitPolicy.from_string row.connection_policy.asPolicyArg =
      Except.error ("Unsupported peer limit policy: " ++ s) := by
    rw [hpol]
    simp [PyVal.asPolicyArg, PeerLimitPolicy.from_string, h1, h2]
  refine ⟨fun st h => ?_, by simp [PeerLimitPolicy.from_string, h1, h2]⟩
  rw [show get_peer_settings true (some row) = PeerLimitSettings.from_row row
        from rfl] at h
  unfold PeerLimitSettings.from_row at h
  rcases hmc : row.max_concurrent with _ | n | ms <;> rw [hmc] at h
  · simp [bind, Except.bind, pure, Except.pure, hfs] at h
  · simp [bind, Except.bind, pure, Except.pure, hfs] at h
  · simp only [bind, Except.bind, pure, Except.pure] at h
    rcases hp : pyParseInt ms with _ | n <;> rw [hp] at h
    · simp at h
    · simp [hfs] at h

/-- C2 witness: the amended theorem applied at the `"sticky"` row. -/
theorem get_peer_settings_raises_on_unknown_policy_w :
    (∀ st, get_peer_settings true (some { connection_policy := .vstr "sticky" })
        ≠ Except.ok st) ∧
      PeerLimitPolicy.from_string (some "sticky") =
        Except.error ("Unsupported peer limit policy: " ++ "sticky") :=
  get_peer_settings_raises_on_unknown_policy
    { connection_policy := .vstr "sticky" } "sticky" rfl
    (by decide) (by decide)

/-! ## C3: the endpoint parser -/

theorem dropWhile_dropWhile {α : Type} (p : α → Bool) (l : List α) :
    (l.dropWhile p).dropWhile p = l.dropWhile p := by
  induction l with
  | nil => rfl
  | cons x xs ih =>
    by_cases h : p x
    · simp [List.dropWhile_cons, h, ih]
    · simp [List.dropWhile_cons, h]

theorem dropWhile_eq_self_mono {α : Type} (p : α → Bool) {l pre : List α}
    (hl : l.dropWhile p = l) (hpre : pre <+: l) : pre.dropWhile p = pre := by
  cases pre with
  | nil => rfl
  | cons x xs =>
    obtain ⟨t, ht⟩ := hpre
    subst ht
    rw [List.cons_append] at hl
    have hx : p x = false := by
      by_contra hx
      rw [Bool.not_eq_false] at hx
      rw [List.dropWhile_cons, if_pos hx] at hl
      have hlen := congrArg List.length hl
      rw [List.length_cons] at hlen
      have hle := (List.dropWhile_suffix (l := (xs ++ t)) p).length_le
      omega
    simp [List.dropWhile_cons, hx]

theorem stripList_idem (p : Char → Bool) (l : List Char) :
    stripList p (stripList p l) = stripList p l := by
  have hu : (l.dropWhile p).dropWhile p = l.dropWhile p := dropWhile_dropWhile p l
  have hv : ((l.dropWhile p).reverse.dropWhile p).dropWhile p =
      (l.dropWhile p).reverse.dropWhile p := dropWhile_dropWhile p _
  have hpre : ((l.dropWhile p).reverse.dropWhile p).reverse <+: l.dropWhile p := by
    have hs : (l.dropWhile p).reverse.dropWhile p <:+ (l.dropWhile p).reverse :=
      List.dropWhile_suffix p
    have := hs.reverse
    rwa [List.reverse_reverse] at this
  have h1 : (stripList p l).dropWhile p = stripList p l :=
    dropWhile_eq_self_mono p hu hpre
  show (((stripList p l).dropWhile p).reverse.dropWhile p).reverse = stripList p l
  rw [h1]
  rw [show (stripList p l).reverse = (l.dropWhile p).reverse.dropWhile p from
        List.reverse_reverse _]
  rw [hv]
  rfl

theorem pyStrip_idem (s : String) : pyStrip (pyStrip s) = pyStrip s := by
  show (⟨stripList pySpace (stripList pySpace s.data)⟩ : String) = _
  rw [stripList_idem]
  rfl

theorem subSplit_eq (sep : List Char) :
    ∀ l a b, subSplit sep l = some (a, b) → l = a ++ sep ++ b := by
  intro l
  induction l with
  | nil =>
    intro a b h
    unfold subSplit at h
    by_cases hp : sep.isPrefixOf ([] : List Char)
    · rw [if_pos hp] at h
      have hsep : sep = [] := List.prefix_nil.mp (List.isPrefixOf_iff_prefix.mp hp)
      cases h
      simp [hsep]
    · rw [if_neg hp] at h
      cases h
  | cons x xs ih =>
    intro a b h
    unfold subSplit at h
    by_cases hp : sep.isPrefixOf (x :: xs)
    · rw [if_pos hp] at h
      obtain ⟨t, ht⟩ := List.isPrefixOf_iff_prefix.mp hp
      cases h
      rw [← ht, List.drop_left]
      simp
    · rw [if_neg hp] at h
      rcases hr : subSplit sep xs with _ | ⟨pre, post⟩ <;> rw [hr] at h
      · cases h
      · cases h
        have h2 := ih _ _ hr
        simp [h2]

theorem rsplitChar_eq_none (c : Char) :
    ∀ l, rsplitChar c l = none ↔ c ∉ l := by
  intro l
  induction l with
  | nil => simp [rsplitChar]
  | cons x xs ih =>
    unfold rsplitChar
    rcases hr : rsplitChar c xs with _ | ⟨pre, post⟩
    · rw [hr] at ih
      by_cases hx : x = c
      · simp [hx]
      · simp [hx, ih.mp rfl, Ne.symm hx]
    · have : c ∈ xs := by
        by_contra hc
        rw [← ih] at hc
        rw [hc] at hr
        cases hr
      simp [this]

theorem rsplitChar_eq (c : Char) :
    ∀ l a b, rsplitChar c l = some (a, b) → l = a ++ c :: b ∧ c ∉ b := by
  intro l
  induction l with
  | nil => intro a b h; cases h
  | cons x xs ih =>
    intro a b h
    unfold rsplitChar at h
    rcases hr : rsplitChar c xs with _ | ⟨pre, post⟩ <;> rw [hr] at h
    · by_cases hx : x = c
      · rw [if_pos hx] at h
        cases h
        exact ⟨by simp [hx], (rsplitChar_eq_none c xs).mp hr⟩
      · rw [if_neg hx] at h
        cases h
    · cases h
      obtain ⟨he, hn⟩ := ih _ _ hr
      exact ⟨by simp [he], hn⟩

/-- Inversion of a successful `split_endpoint` parse. -/
theorem split_endpoint_some {s host : String} {p : Int}
    (h : split_endpoint s = some (host, p)) :
    ¬(pyStrip s = "" ∨ pyLower (pyStrip s) = "(none)") ∧ host ≠ "" ∧
    ∃ ps : String, ps ≠ "" ∧ pyParseInt ps = some p ∧
      ((startsWithBracket (pyStrip s) = true ∧
        subSplit [']', ':'] ((pyStrip s).data.drop 1) = some (host.data, ps.data)) ∨
       (startsWithBracket (pyStrip s) = false ∧
        rsplitChar ':' (pyStrip s).data = some (host.data, ps.data))) := by
  unfold split_endpoint at h
  by_cases hemp : pyStrip s = "" ∨ pyLower (pyStrip s) = "(none)"
  · rw [if_pos hemp] at h; cases h
  · rw [if_neg hemp] at h
    refine ⟨hemp, ?_⟩
    by_cases hb : startsWithBracket (pyStrip s) = true
    · rw [if_pos hb] at h
      rcases hsub : subSplit [']', ':'] ((pyStrip s).data.drop 1) with _ | ⟨a, b⟩ <;>
        rw [hsub] at h
      · simp at h
      · by_cases hh : (⟨a⟩ : String) = "" ∨ (⟨b⟩ : String) = ""
        · rw [if_pos hh] at h; cases h
        · rw [if_neg hh] at h
          push_neg at hh
          rcases hpp : pyParseInt ⟨b⟩ with _ | n <;> rw [hpp] at h
          · cases h
          · simp only [Option.map_some] at h
            have h' := Option.some.inj h
            rw [Prod.mk.injEq] at h'
            obtain ⟨h1, h2⟩ := h'
            subst h1
            subst h2
            exact ⟨hh.1, ⟨b⟩, hh.2, hpp, Or.inl ⟨hb, rfl⟩⟩
    · rw [if_neg hb] at h
      rw [Bool.not_eq_true] at hb
      rcases hsub : rsplitChar ':' (pyStrip s).data with _ | ⟨a, b⟩ <;>
        rw [hsub] at h
      · by_cases hh : ("" : String) = "" ∨ pyStrip s = ""
        · rw [if_pos hh] at h; cases h
        · exact absurd (Or.inl rfl) hh
      · by_cases hh : (⟨a⟩ : String) = "" ∨ (⟨b⟩ : String) = ""
        · rw [if_pos hh] at h; cases h
        · rw [if_neg hh] at h
          push_neg at hh
          rcases hpp : pyParseInt ⟨b⟩ with _ | n <;> rw [hpp] at h
          · cases h
          · simp only [Option.map_some] at h
            have h' := Option.some.inj h
            rw [Prod.mk.injEq] at h'
            obtain ⟨h1, h2⟩ := h'
            subst h1
            subst h2
            exact ⟨hh.1, ⟨b⟩, hh.2, hpp, Or.inr ⟨hb, rfl⟩⟩

/-- The head of a string whose `startswith("[")` test succeeds. -/
theorem startsWithBracket_data {s : String} (h : startsWithBracket s = true) :
    s.data = '[' :: s.data.drop 1 := by
  unfold startsWithBracket at h
  rcases hd : s.data with _ | ⟨c, rest⟩ <;> rw [hd] at h
  · cases h
  · rw [beq_iff_eq] at h
    simp [h]

/-- C3, counterexample: the claim demands rejection (`None`) unless the port
substring parses as a *positive* integer, but the code accepts any string
`int()` accepts: port `0` is returned, not rejected. -/
theorem split_endpoint_accepts_port_zero :
    split_endpoint "10.0.0.1:0" = some ("10.0.0.1", 0) := by decide

/-- C3 (amended): `split_endpoint` trims whitespace, rejects empty strings and
the literal `"(none)"` case-insensitively; a successful parse of a string
beginning with `"["` decomposes the trimmed input as `[host]:port`, any other
successful parse splits at the rightmost `':'` (no colon occurs in the port
part); the host part is never empty; and the parsed port is whatever integer
Python `int()` accepts for the port substring — which may be zero or negative,
not necessarily positive. -/
theorem split_endpoint_characterization :
    (∀ s : String, split_endpoint s = split_endpoint (pyStrip s)) ∧
    (∀ s : String, pyStrip s = "" → split_endpoint s = none) ∧
    (∀ s : String, pyLower (pyStrip s) = "(none)" → split_endpoint s = none) ∧
    (∀ (s host : String) (p : Int), startsWithBracket (pyStrip s) = true →
      split_endpoint s = some (host, p) →
      ∃ ps : String, (pyStrip s).data = '[' :: (host.data ++ ']' :: ':' :: ps.data) ∧
        pyParseInt ps = some p ∧ ps ≠ "") ∧
    (∀ (s host : String) (p : Int), startsWithBracket (pyStrip s) = false →
      split_endpoint s = some (host, p) →
      ∃ ps : String, (pyStrip s).data = host.data ++ ':' :: ps.data ∧
        ':' ∉ ps.data ∧ pyParseInt ps = some p ∧ ps ≠ "") ∧
    (∀ (s : String) (r : String × Int), split_endpoint s = some r → r.1 ≠ "") := by
  refine ⟨?_, ?_, ?_, ?_, ?_, ?_⟩
  · intro s
    show split_endpoint s = split_endpoint (pyStrip s)
    unfold split_endpoint
    rw [pyStrip_idem]
  · intro s h
    unfold split_endpoint
    rw [if_pos (Or.inl h)]
  · intro s h
    unfold split_endpoint
    rw [if_pos (Or.inr h)]
  · intro s host p hb h
    obtain ⟨-, -, ps, hps, hparse, hcase⟩ := split_endpoint_some h
    rcases hcase with ⟨-, hsub⟩ | ⟨hb2, -⟩
    · have hdec := subSplit_eq _ _ _ _ hsub
      refine ⟨ps, ?_, hparse, hps⟩
      rw [startsWithBracket_data hb, hdec]
      simp
    · rw [hb] at hb2; cases hb2
  · intro s host p hb h
    obtain ⟨-, -, ps, hps, hparse, hcase⟩ := split_endpoint_some h
    rcases hcase with ⟨hb2, -⟩ | ⟨-, hsplit⟩
    · rw [hb] at hb2; cases hb2
    · obtain ⟨hdec, hnc⟩ := rsplitChar_eq _ _ _ _ hsplit
      exact ⟨ps, hdec, hnc, hparse, hps⟩
  · intro s r h
    obtain ⟨-, hhost, -⟩ := split_endpoint_some (show split_endpoint s = some (r.1, r.2) by
      rw [h])
    exact hhost

/-- C3 witness: the characterization applied at concrete endpoint strings. -/
theorem split_endpoint_characterization_w :
    split_endpoint " x " = split_endpoint (pyStrip " x ") ∧
      split_endpoint "   " = none ∧ split_endpoint " (NoNe) " = none := by
  refine ⟨split_endpoint_characterization.1 " x ", ?_, ?_⟩
  · exact split_endpoint_characterization.2.1 "   " (by decide)
  · exact split_endpoint_characterization.2.2.1 " (NoNe) " (by decide)

/-! ## Association-list lemmas -/

theorem assocGet_mem {κ α : Type} [DecidableEq κ] {l : List (κ × α)} {k : κ}
    {v : α} (h : assocGet l k = some v) : (k, v) ∈ l := by
  induction l with
  | nil => cases h
  | cons p rest ih =>
    obtain ⟨k0, v0⟩ := p
    unfold assocGet at h
    by_cases hk : k0 = k
    · rw [if_pos hk] at h
      cases h
      subst hk
      exact List.mem_cons_self ..
    · rw [if_neg hk] at h
      exact List.mem_cons_of_mem _ (ih h)

theorem assocGet_assocSet {κ α : Type} [DecidableEq κ] (l : List (κ × α))
    (k : κ) (v : α) : assocGet (assocSet l k v) k = some v := by
  induction l with
  | nil => simp [assocSet, assocGet]
  | cons p rest ih =>
    obtain ⟨k0, v0⟩ := p
    unfold assocSet
    by_cases hk : k0 = k
    · rw [if_pos hk]
      simp [assocGet, hk]
    · rw [if_neg hk]
      simp [assocGet, hk, ih]

theorem assocGet_assocSet_ne {κ α : Type} [DecidableEq κ] (l : List (κ × α))
    {k k' : κ} (v : α) (h : k ≠ k') :
    assocGet (assocSet l k v) k' = assocGet l k' := by
  induction l with
  | nil => simp [assocSet, assocGet, h]
  | cons p rest ih =>
    obtain ⟨k0, v0⟩ := p
    unfold assocSet
    by_cases hk : k0 = k
    · rw [if_pos hk]
      subst hk
      simp [assocGet, h]
    · rw [if_neg hk]
      simp [assocGet, ih]

theorem assocGet_filter_of_pos {κ α : Type} [DecidableEq κ]
    (q : κ × α → Bool) {l : List (κ × α)} {k : κ} {v : α}
    (h : assocGet l k = some v) (hq : q (k, v) = true) :
    assocGet (l.filter q) k = some v := by
  induction l with
  | nil => cases h
  | cons p rest ih =>
    obtain ⟨k0, v0⟩ := p
    unfold assocGet at h
    by_cases hk : k0 = k
    · rw [if_pos hk] at h
      cases h
      subst hk
      rw [List.filter_cons, if_pos hq]
      simp [assocGet]
    · rw [if_neg hk] at h
      rw [List.filter_cons]
      by_cases hq0 : q (k0, v0)
      · rw [if_pos hq0]
        unfold assocGet
        rw [if_neg hk]
        exact ih h
      · rw [if_neg hq0]
        exact ih h

/-! ## The existing-session update path of `observe` (C6, C7) -/

/-- Reading the key's dictionary after `_expire`, when some live session is
present under it: the dictionary is the TTL-filtered one. -/
theorem expire_get (st : SessionTracker) (key : String × String)
    (ttl now : Int) {d : SessionDict}
    (hget : assocGet st.sessions key = some d)
    {e : String} {prev : PeerSession} (hmem : assocGet d e = some prev)
    (hlive : now - max ttl 1 ≤ prev.last_seen) :
    assocGet (st.expire key ttl now).sessions key =
      some (d.filter (fun p => !decide (p.2.last_seen < now - max ttl 1))) := by
  have hdne : d ≠ [] := by
    rintro rfl
    cases hmem
  have hqprev : (fun p : String × PeerSession =>
      !decide (p.2.last_seen < now - max ttl 1)) (e, prev) = true := by
    simp only [Bool.not_eq_true', decide_eq_false_iff_not, not_lt]
    exact hlive
  have hkeptne : d.filter (fun p : String × PeerSession =>
      !decide (p.2.last_seen < now - max ttl 1)) ≠ [] := by
    intro hnil
    have h2 := assocGet_filter_of_pos (fun p : String × PeerSession =>
        !decide (p.2.last_seen < now - max ttl 1)) hmem hqprev
    rw [hnil] at h2
    cases h2
  unfold SessionTracker.expire
  rw [hget]
  simp only [List.isEmpty_eq_false.mpr hdne, List.isEmpty_eq_false.mpr hkeptne,
    Bool.false_eq_true, if_false]
  exact assocGet_assocSet ..

/-- The existing-session branch of `observe` (PeerLimits.py lines 138-151):
when a live session for the stripped, valid endpoint already exists, `observe`
replaces it by the record with clamped deltas, the new cumulative counters,
the traffic-gated `last_seen` and the monotonically-updated handshake. -/
theorem observe_existing {st : SessionTracker} {interface peer_id e : String}
    {lh : Option Int} {rx tx : Int} {settings : PeerLimitSettings} {now : Int}
    {prev : PeerSession}
    (hstrip : pyStrip e = e) (hne : e ≠ "") (hnone : pyLower e ≠ "(none)")
    (hprev : assocGet ((assocGet st.sessions (interface, peer_id)).getD []) e =
      some prev)
    (hlive : now - max settings.ttl_seconds 1 ≤ prev.last_seen) :
    assocGet ((assocGet
        ((st.observe interface peer_id (some e) lh rx tx settings now).1).sessions
        (interface, peer_id)).getD []) e =
      some { prev with
        rx_bytes := rx, tx_bytes := tx,
        rx_delta := max 0 (rx - prev.rx_bytes),
        tx_delta := max 0 (tx - prev.tx_bytes),
        last_seen :=
          if max 0 (rx - prev.rx_bytes) ≠ 0 ∨ max 0 (tx - prev.tx_bytes) ≠ 0
          then now else prev.last_seen,
        last_handshake :=
          updatedHandshake (handshakeFromUnix lh) prev.last_handshake } := by
  rcases hd : assocGet st.sessions (interface, peer_id) with _ | d
  · rw [hd] at hprev
    simp [assocGet] at hprev
  · rw [hd] at hprev
    rw [Option.getD_some] at hprev
    have hexp := expire_get st (interface, peer_id) settings.ttl_seconds now hd
      hprev hlive
    have hqprev : (fun p : String × PeerSession =>
        !decide (p.2.last_seen < now - max settings.ttl_seconds 1)) (e, prev)
          = true := by
      simp only [Bool.not_eq_true', decide_eq_false_iff_not, not_lt]
      exact hlive
    have hkept := assocGet_filter_of_pos (fun p : String × PeerSession =>
        !decide (p.2.last_seen < now - max settings.ttl_seconds 1)) hprev hqprev
    unfold SessionTracker.observe
    simp only [hexp, Option.getD_some, Option.getD_some, hstrip]
    rw [if_pos ⟨hne, hnone⟩]
    rw [hkept]
    rw [assocGet_assocSet]
    rw [Option.getD_some]
    rw [assocGet_assocSet]

/-- C6: when `observe` is called for an endpoint whose (live) session already
exists under the key, the deltas are `max(0, new - previous)` and hence never
negative even across counter resets, the stored cumulative counters are
replaced by the new values, and `last_seen` advances to `now` exactly when a
delta is nonzero, otherwise keeping its previous value. -/
theorem observe_updates_existing_session {st : SessionTracker}
    {interface peer_id e : String} {lh : Option Int} {rx tx : Int}
    {settings : PeerLimitSettings} {now : Int} {prev : PeerSession}
    (hstrip : pyStrip e = e) (hne : e ≠ "") (hnone : pyLower e ≠ "(none)")
    (hprev : assocGet ((assocGet st.sessions (interface, peer_id)).getD []) e =
      some prev)
    (hlive : now - max settings.ttl_seconds 1 ≤ prev.last_seen) :
    ∃ cur, assocGet ((assocGet
        ((st.observe interface peer_id (some e) lh rx tx settings now).1).sessions
        (interface, peer_id)).getD []) e = some cur ∧
      cur.rx_delta = max 0 (rx - prev.rx_bytes) ∧
      cur.tx_delta = max 0 (tx - prev.tx_bytes) ∧
      0 ≤ cur.rx_delta ∧ 0 ≤ cur.tx_delta ∧
      cur.rx_bytes = rx ∧ cur.tx_bytes = tx ∧
      ((cur.rx_delta ≠ 0 ∨ cur.tx_delta ≠ 0) → cur.last_seen = now) ∧
      (cur.rx_delta = 0 ∧ cur.tx_delta = 0 → cur.last_seen = prev.last_seen) := by
  refine ⟨_, observe_existing hstrip hne hnone hprev hlive, rfl, rfl,
    le_max_left .., le_max_left .., rfl, rfl, ?_, ?_⟩
  · intro h
    exact if_pos h
  · rintro ⟨h1, h2⟩
    exact if_neg (fun hc => hc.elim (fun ha => ha h1) (fun hb => hb h2))

/-- The stored session of scenario S6, first observed with `rx = 1000`. -/
def c6Prev : PeerSession :=
  { endpoint := "1.2.3.4:5", first_seen := 0, last_seen := 0,
    last_handshake := none, rx_bytes := 1000, tx_bytes := 0,
    rx_delta := 0, tx_delta := 0 }

/-- A tracker holding exactly the S6 session. -/
def c6Tracker : SessionTracker := ⟨[(("wg0", "p"), [("1.2.3.4:5", c6Prev)])]⟩

/-- C6 witness: scenario S6. The stored session has `rx_bytes = 1000`; it is
observed again with `rx = 10`: the delta clamps to `0`, the stored counter
becomes `10`, and `last_seen` is preserved. -/
theorem observe_updates_existing_session_w :
    ∃ cur, assocGet ((assocGet
        ((c6Tracker.observe "wg0" "p" (some "1.2.3.4:5") none 10 0 {} 1).1).sessions
        ("wg0", "p")).getD []) "1.2.3.4:5" = some cur ∧
      cur.rx_delta = max 0 (10 - c6Prev.rx_bytes) ∧
      cur.tx_delta = max 0 (0 - c6Prev.tx_bytes) ∧
      (0 : Int) ≤ cur.rx_delta ∧ (0 : Int) ≤ cur.tx_delta ∧
      cur.rx_bytes = 10 ∧ cur.tx_bytes = 0 ∧
      ((cur.rx_delta ≠ 0 ∨ cur.tx_delta ≠ 0) → cur.last_seen = 1) ∧
      (cur.rx_delta = 0 ∧ cur.tx_delta = 0 → cur.last_seen = c6Prev.last_seen) :=
  @observe_updates_existing_session c6Tracker "wg0" "p" "1.2.3.4:5" none 10 0
    {} 1 c6Prev (by decide) (by decide) (by decide) (by decide) (by decide)

/-- Case analysis of the handshake update rule. -/
theorem updatedHandshake_cases (lh old : Option Int) :
    (updatedHandshake (handshakeFromUnix lh) old ≠ old →
      ∃ h0, lh = some h0 ∧ h0 ≠ 0 ∧
        updatedHandshake (handshakeFromUnix lh) old = some h0 ∧
        ∀ o, old = some o → o < h0) ∧
    (∀ o, old = some o →
      ∃ n, updatedHandshake (handshakeFromUnix lh) old = some n ∧ o ≤ n) := by
  rcases lh with _ | h0
  · constructor
    · intro h
      exact absurd rfl h
    · intro o ho
      exact ⟨o, by rw [ho]; rfl, le_refl o⟩
  · by_cases h0z : h0 = 0
    · subst h0z
      constructor
      · intro h
        exact absurd rfl h
      · intro o ho
        exact ⟨o, by rw [ho]; rfl, le_refl o⟩
    · rcases old with _ | o
      · constructor
        · intro _
          refine ⟨h0, rfl, h0z, ?_, ?_⟩
          · simp [handshakeFromUnix, updatedHandshake, h0z]
          · intro o ho
            cases ho
        · intro o ho
          cases ho
      · by_cases hlt : o < h0
        · constructor
          · intro _
            refine ⟨h0, rfl, h0z, ?_, ?_⟩
            · simp [handshakeFromUnix, updatedHandshake, h0z, hlt]
            · intro o' ho'
              cases ho'
              exact hlt
          · intro o' ho'
            cases ho'
            exact ⟨h0, by simp [handshakeFromUnix, updatedHandshake, h0z, hlt],
              le_of_lt hlt⟩
        · have heq : updatedHandshake (handshakeFromUnix (some h0)) (some o) =
              some o := by
            simp [handshakeFromUnix, updatedHandshake, h0z, hlt]
          constructor
          · intro h
            exact absurd heq h
          · intro o' ho'
            cases ho'
            exact ⟨o, heq, le_refl o⟩

/-- C7: on an existing (live) session, `observe` replaces `last_handshake`
only when the observed handshake timestamp is truthy (nonzero) and strictly
greater than the stored value or nothing is stored; in particular the stored
handshake never moves backwards. -/
theorem observe_handshake_monotonic {st : SessionTracker}
    {interface peer_id e : String} {lh : Option Int} {rx tx : Int}
    {settings : PeerLimitSettings} {now : Int} {prev : PeerSession}
    (hstrip : pyStrip e = e) (hne : e ≠ "") (hnone : pyLower e ≠ "(none)")
    (hprev : assocGet ((assocGet st.sessions (interface, peer_id)).getD []) e =
      some prev)
    (hlive : now - max settings.ttl_seconds 1 ≤ prev.last_seen) :
    ∃ cur, assocGet ((assocGet
        ((st.observe interface peer_id (some e) lh rx tx settings now).1).sessions
        (interface, peer_id)).getD []) e = some cur ∧
      cur.last_handshake =
        updatedHandshake (handshakeFromUnix lh) prev.last_handshake ∧
      (cur.last_handshake ≠ prev.last_handshake →
        ∃ h0, lh = some h0 ∧ h0 ≠ 0 ∧ cur.last_handshake = some h0 ∧
          ∀ o, prev.last_handshake = some o → o < h0) ∧
      (∀ o, prev.last_handshake = some o →
        ∃ n, cur.last_handshake = some n ∧ o ≤ n) :=
  ⟨_, observe_existing hstrip hne hnone hprev hlive, rfl,
    (updatedHandshake_cases lh prev.last_handshake).1,
    (updatedHandshake_cases lh prev.last_handshake).2⟩

/-- The stored session for the C7 witness, with a recorded handshake at 5. -/
def c7Prev : PeerSession :=
  { endpoint := "1.2.3.4:5", first_seen := 0, last_seen := 0,
    last_handshake := some 5, rx_bytes := 0, tx_bytes := 0,
    rx_delta := 0, tx_delta := 0 }

/-- A tracker holding exactly the C7 session. -/
def c7Tracker : SessionTracker := ⟨[(("wg0", "p"), [("1.2.3.4:5", c7Prev)])]⟩

/-- C7 witness: observing an older handshake (3 against a stored 5) never
moves the stored handshake backwards. -/
theorem observe_handshake_monotonic_w :
    ∃ cur, assocGet ((assocGet
        ((c7Tracker.observe "wg0" "p" (some "1.2.3.4:5") (some 3) 0 0 {} 1).1).sessions
        ("wg0", "p")).getD []) "1.2.3.4:5" = some cur ∧
      cur.last_handshake =
        updatedHandshake (handshakeFromUnix (some 3)) c7Prev.last_handshake ∧
      (cur.last_handshake ≠ c7Prev.last_handshake →
        ∃ h0, (some 3 : Option Int) = some h0 ∧ h0 ≠ 0 ∧
          cur.last_handshake = some h0 ∧
          ∀ o, c7Prev.last_handshake = some o → o < h0) ∧
      (∀ o, c7Prev.last_handshake = some o →
        ∃ n, cur.last_handshake = some n ∧ o ≤ n) :=
  @observe_handshake_monotonic c7Tracker "wg0" "p" "1.2.3.4:5" (some 3) 0 0
    {} 1 c7Prev (by decide) (by decide) (by decide) (by decide) (by decide)

/-! ## C8: `active_sessions` -/

/-- C8: with a valid TTL (`ttl_seconds ≥ 1`, the data-model invariant),
`active_sessions` returns exactly (as a permutation) the tracked sessions of
the key whose `last_seen` lies within `now - ttl_seconds`; no returned session
is older than the window; the result is sorted by `last_seen` descending; and
the tracker state is not mutated. -/
theorem active_sessions_spec (st : SessionTracker) (interface peer_id : String)
    (settings : PeerLimitSettings) (now : Int)
    (hT : 1 ≤ settings.ttl_seconds) :
    ((st.active_sessions interface peer_id settings now).Perm
      ((((assocGet st.sessions (interface, peer_id)).getD []).map Prod.snd).filter
        (fun s => decide (now - settings.ttl_seconds ≤ s.last_seen)))) ∧
    (∀ s ∈ st.active_sessions interface peer_id settings now,
      now - settings.ttl_seconds ≤ s.last_seen) ∧
    ((st.active_sessions interface peer_id settings now).Pairwise
      (fun a b => b.last_seen ≤ a.last_seen)) ∧
    (st.active_sessionsRun interface peer_id settings now).1 = st := by
  have hmax : max settings.ttl_seconds 1 = settings.ttl_seconds := max_eq_left hT
  refine ⟨?_, ?_, ?_, rfl⟩
  · show (List.mergeSort _ _).Perm _
    rw [hmax]
    exact List.mergeSort_perm _ _
  · intro s hs
    have hs2 : s ∈ (((assocGet st.sessions (interface, peer_id)).getD
        []).map Prod.snd).filter
        (fun s => decide (now - max settings.ttl_seconds 1 ≤ s.last_seen)) :=
      List.mem_mergeSort.mp hs
    have := (List.mem_filter.mp hs2).2
    rw [hmax] at this
    exact of_decide_eq_true this
  · show (List.mergeSort _ _).Pairwise _
    refine List.Pairwise.imp ?_ (List.sorted_mergeSort ?_ ?_ _)
    · intro a b h
      exact of_decide_eq_true h
    · intro a b c hab hbc
      simp only [decide_eq_true_eq] at hab hbc ⊢
      omega
    · intro a b
      simp only [Bool.or_eq_true, decide_eq_true_eq]
      exact le_total _ _

/-- A tracker with two live sessions for the C8 witness. -/
def c8Tracker : SessionTracker :=
  ⟨[(("wg0", "p"),
     [("10.0.0.1:1", { endpoint := "10.0.0.1:1", first_seen := 0,
                       last_seen := 0, last_handshake := none, rx_bytes := 0,
                       tx_bytes := 0, rx_delta := 0, tx_delta := 0 }),
      ("10.0.0.2:2", { endpoint := "10.0.0.2:2", first_seen := 5,
                       last_seen := 5, last_handshake := none, rx_bytes := 0,
                       tx_bytes := 0, rx_delta := 0, tx_delta := 0 })])]⟩

/-- C8 witness: the specification applied to a concrete two-session tracker
with the default settings (`ttl_seconds = 180`). -/
theorem active_sessions_spec_w :
    ((c8Tracker.active_sessions "wg0" "p" {} 10).Perm
      ((((assocGet c8Tracker.sessions ("wg0", "p")).getD []).map Prod.snd).filter
        (fun s => decide (10 - (180 : Int) ≤ s.last_seen)))) ∧
    (∀ s ∈ c8Tracker.active_sessions "wg0" "p" {} 10,
      10 - (180 : Int) ≤ s.last_seen) ∧
    ((c8Tracker.active_sessions "wg0" "p" {} 10).Pairwise
      (fun a b => b.last_seen ≤ a.last_seen)) ∧
    (c8Tracker.active_sessionsRun "wg0" "p" {} 10).1 = c8Tracker :=
  active_sessions_spec c8Tracker "wg0" "p" {} 10 (by decide)

/-! ## `append_unique` lemmas -/

theorem appendUnique_mem_left (acc : List PeerSession × List String)
    (xs : List PeerSession) {s : PeerSession} (h : s ∈ acc.1) :
    s ∈ (appendUnique acc xs).1 := by
  induction xs generalizing acc with
  | nil => exact h
  | cons x rest ih =>
    rcases acc with ⟨al, sn⟩
    unfold appendUnique
    by_cases hx : x.endpoint ∈ sn
    · rw [if_pos hx]
      exact ih _ h
    · rw [if_neg hx]
      exact ih _ (List.mem_append_left _ h)

theorem appendUnique_mem (acc : List PeerSession × List String)
    (xs : List PeerSession) {s : PeerSession}
    (h : s ∈ (appendUnique acc xs).1) : s ∈ acc.1 ∨ s ∈ xs := by
  induction xs generalizing acc with
  | nil => exact Or.inl h
  | cons x rest ih =>
    rcases acc with ⟨al, sn⟩
    unfold appendUnique at h
    by_cases hx : x.endpoint ∈ sn
    · rw [if_pos hx] at h
      rcases ih _ h with h2 | h2
      · exact Or.inl h2
      · exact Or.inr (List.mem_cons_of_mem _ h2)
    · rw [if_neg hx] at h
      rcases ih _ h with h2 | h2
      · rcases List.mem_append.mp h2 with h3 | h3
        · exact Or.inl h3
        · rcases List.mem_singleton.mp h3 with rfl
          exact Or.inr (List.mem_cons_self ..)
      · exact Or.inr (List.mem_cons_of_mem _ h2)

theorem appendUnique_length_le (acc : List PeerSession × List String)
    (xs : List PeerSession) :
    (appendUnique acc xs).1.length ≤ acc.1.length + xs.length := by
  induction xs generalizing acc with
  | nil => simp [appendUnique]
  | cons x rest ih =>
    rcases acc with ⟨al, sn⟩
    unfold appendUnique
    by_cases hx : x.endpoint ∈ sn
    · rw [if_pos hx]
      show (appendUnique (al, sn) rest).1.length ≤ al.length + (x :: rest).length
      have h2 : (appendUnique (al, sn) rest).1.length ≤ al.length + rest.length :=
        ih (al, sn)
      simp only [List.length_cons]
      omega
    · rw [if_neg hx]
      show (appendUnique (al ++ [x], x.endpoint :: sn) rest).1.length ≤
        al.length + (x :: rest).length
      have h2 : (appendUnique (al ++ [x], x.endpoint :: sn) rest).1.length ≤
          (al ++ [x]).length + rest.length := ih _
      simp only [List.length_append, List.length_singleton, List.length_cons,
        List.length_nil] at h2 ⊢
      omega

theorem appendUnique_first (acc : List PeerSession × List String)
    (xs : List PeerSession) {s : PeerSession}
    (hnodup : (xs.map PeerSession.endpoint).Nodup)
    (hs : s ∈ xs) (hseen : s.endpoint ∉ acc.2) :
    s ∈ (appendUnique acc xs).1 := by
  induction xs generalizing acc with
  | nil => cases hs
  | cons x rest ih =>
    rcases acc with ⟨al, sn⟩
    rw [List.map_cons] at hnodup
    rcases List.mem_cons.mp hs with rfl | hs2
    · unfold appendUnique
      rw [if_neg hseen]
      exact appendUnique_mem_left _ _ (List.mem_append_right _ (List.mem_singleton.mpr rfl))
    · have hne : s.endpoint ≠ x.endpoint := by
        intro he
        exact (List.nodup_cons.mp hnodup).1 (he ▸ List.mem_map_of_mem _ hs2)
      unfold appendUnique
      by_cases hx : x.endpoint ∈ sn
      · rw [if_pos hx]
        exact ih _ (List.nodup_cons.mp hnodup).2 hs2 hseen
      · rw [if_neg hx]
        refine ih _ (List.nodup_cons.mp hnodup).2 hs2 ?_
        simp only [List.mem_cons, not_or]
        exact ⟨hne, hseen⟩

theorem appendUnique_nodup (acc : List PeerSession × List String)
    (xs : List PeerSession)
    (hal : (acc.1.map PeerSession.endpoint).Nodup)
    (hsub : ∀ a ∈ acc.1, a.endpoint ∈ acc.2) :
    ((appendUnique acc xs).1.map PeerSession.endpoint).Nodup := by
  induction xs generalizing acc with
  | nil => exact hal
  | cons x rest ih =>
    rcases acc with ⟨al, sn⟩
    unfold appendUnique
    by_cases hx : x.endpoint ∈ sn
    · rw [if_pos hx]
      exact ih _ hal hsub
    · rw [if_neg hx]
      refine ih _ ?_ ?_
      · rw [List.map_append, List.map_singleton]
        refine hal.append (List.nodup_singleton _) ?_
        intro a ha hb
        rcases List.mem_singleton.mp hb with rfl
        rcases List.mem_map.mp ha with ⟨b, hbm, hbe⟩
        exact hx (hbe ▸ hsub b hbm)
      · intro a ha
        rcases List.mem_append.mp ha with h2 | h2
        · exact List.mem_cons_of_mem _ (hsub a h2)
        · rcases List.mem_singleton.mp h2 with rfl
          exact List.mem_cons_self ..

/-! ## Endpoint uniqueness of `active_sessions` under well-formed state -/

theorem active_endpoints_nodup (st : SessionTracker)
    (interface peer_id : String) (settings : PeerLimitSettings) (now : Int)
    (hwf : TrackerWF st) :
    ((st.active_sessions interface peer_id settings now).map
      PeerSession.endpoint).Nodup := by
  have hdwf : DictWF ((assocGet st.sessions (interface, peer_id)).getD []) := by
    rcases hd : assocGet st.sessions (interface, peer_id) with _ | d
    · exact ⟨List.nodup_nil, by intro p hp; cases hp⟩
    · exact hwf.2 _ (assocGet_mem hd)
  have hmap : ((((assocGet st.sessions (interface, peer_id)).getD []).map
      Prod.snd).map PeerSession.endpoint).Nodup := by
    rw [List.map_map]
    show (List.map (fun p : String × PeerSession => p.2.endpoint)
      ((assocGet st.sessions (interface, peer_id)).getD [])).Nodup
    rw [List.map_congr_left (g := Prod.fst) (fun p hp => hdwf.2 p hp)]
    exact hdwf.1
  have hfil : (((((assocGet st.sessions (interface, peer_id)).getD []).map
      Prod.snd).filter (fun s => decide (now - max settings.ttl_seconds 1 ≤
        s.last_seen))).map PeerSession.endpoint).Nodup :=
    hmap.sublist (List.Sublist.map _ (List.filter_sublist _))
  have hperm : ((st.active_sessions interface peer_id settings now).map
      PeerSession.endpoint).Perm
      (((((assocGet st.sessions (interface, peer_id)).getD []).map
        Prod.snd).filter (fun s => decide (now - max settings.ttl_seconds 1 ≤
          s.last_seen))).map PeerSession.endpoint) :=
    (List.mergeSort_perm _ _).map _
  exact hperm.nodup_iff.mpr hfil

theorem appendUnique_closed (acc : List PeerSession × List String)
    (xs : List PeerSession)
    (hsub : ∀ a ∈ acc.1, a.endpoint ∈ acc.2) :
    ∀ a ∈ (appendUnique acc xs).1, a.endpoint ∈ (appendUnique acc xs).2 := by
  induction xs generalizing acc with
  | nil => exact hsub
  | cons x rest ih =>
    rcases acc with ⟨al, sn⟩
    unfold appendUnique
    by_cases hx : x.endpoint ∈ sn
    · rw [if_pos hx]
      exact ih _ hsub
    · rw [if_neg hx]
      refine ih _ ?_
      intro a ha
      rcases List.mem_append.mp ha with h2 | h2
      · exact List.mem_cons_of_mem _ (hsub a h2)
      · rcases List.mem_singleton.mp h2 with rfl
        exact List.mem_cons_self ..

/-! ## C10: `allowed_sessions` structural invariants -/

/-- C10: on a well-formed tracker state, every session returned by
`allowed_sessions` is also returned by `active_sessions` for the same
arguments, the returned endpoints are pairwise distinct, and the tracker state
is not mutated. -/
theorem allowed_sessions_inv (st : SessionTracker)
    (interface peer_id : String) (settings : PeerLimitSettings) (now : Int)
    (hwf : TrackerWF st) :
    (∀ s ∈ st.allowed_sessions interface peer_id settings now,
      s ∈ st.active_sessions interface peer_id settings now) ∧
    ((st.allowed_sessions interface peer_id settings now).map
      PeerSession.endpoint).Nodup ∧
    (st.allowed_sessionsRun interface peer_id settings now).1 = st := by
  refine ⟨?_, ?_, rfl⟩
  · intro s hs
    simp only [SessionTracker.allowed_sessions] at hs
    split at hs
    · exact hs
    · split at hs
      · exact hs
      · split at hs
        · rcases appendUnique_mem _ _ hs with h | h
          · cases h
          · exact (List.mem_filter.mp h).1
        · rcases appendUnique_mem _ _ hs with h | h
          · rcases appendUnique_mem _ _ h with h2 | h2
            · cases h2
            · exact (List.mem_filter.mp h2).1
          · have h3 := List.take_subset _ _ h
            split at h3
            · exact (List.mem_filter.mp h3).1
            · exact (List.mem_filter.mp (List.mem_mergeSort.mp h3)).1
  · simp only [SessionTracker.allowed_sessions]
    split
    · exact active_endpoints_nodup st interface peer_id settings now hwf
    · split
      · exact active_endpoints_nodup st interface peer_id settings now hwf
      · split
        · exact appendUnique_nodup _ _ List.nodup_nil
            (by intro a ha; simp at ha)
        · exact appendUnique_nodup _ _
            (appendUnique_nodup _ _ List.nodup_nil
              (by intro a ha; simp at ha))
            (appendUnique_closed _ _ (by intro a ha; simp at ha))

/-- A one-session tracker for the C10 witness. -/
def c10Tracker : SessionTracker :=
  ⟨[(("wg0", "p"),
     [("10.9.8.7:6",
       { endpoint := "10.9.8.7:6",
         first_seen := 0, last_seen := 0 })])]⟩

unseal List.merge List.mergeSort in
/-- C10 witness: the invariants applied to a concrete tracker with a finite
limit. -/
theorem allowed_sessions_inv_w :
    (∀ s ∈ c10Tracker.allowed_sessions "wg0" "p"
        { max_concurrent := some 1, grace_seconds := 0 } 1,
      s ∈ c10Tracker.active_sessions "wg0" "p"
        { max_concurrent := some 1, grace_seconds := 0 } 1) ∧
    ((c10Tracker.allowed_sessions "wg0" "p"
        { max_concurrent := some 1, grace_seconds := 0 } 1).map
      PeerSession.endpoint).Nodup ∧
    (c10Tracker.allowed_sessionsRun "wg0" "p"
        { max_concurrent := some 1, grace_seconds := 0 } 1).1 = c10Tracker :=
  allowed_sessions_inv c10Tracker "wg0" "p"
    { max_concurrent := some 1, grace_seconds := 0 } 1 (by decide)

/-! ## C5: grace-window admissibility -/

/-- C5 (amended): on a well-formed tracker, a session that is *active* (within
the TTL window) and whose `first_seen` is within the grace window is always in
`allowed_sessions`, regardless of `max_concurrent` and of the other sessions. -/
theorem grace_sessions_always_allowed (st : SessionTracker)
    (interface peer_id : String) (settings : PeerLimitSettings) (now : Int)
    (s : PeerSession) (hwf : TrackerWF st)
    (ha : s ∈ st.active_sessions interface peer_id settings now)
    (hg : now - settings.grace_seconds ≤ s.first_seen) :
    s ∈ st.allowed_sessions interface peer_id settings now := by
  have hgw : now - max settings.grace_seconds 0 ≤ s.first_seen := by
    have h2 := le_max_left settings.grace_seconds 0
    omega
  have hmemg : s ∈ (st.active_sessions interface peer_id settings now).filter
      (fun s => decide (now - max settings.grace_seconds 0 ≤ s.first_seen)) :=
    List.mem_filter.mpr ⟨ha, decide_eq_true hgw⟩
  have hnodupg : (((st.active_sessions interface peer_id settings now).filter
      (fun s => decide (now - max settings.grace_seconds 0 ≤
        s.first_seen))).map PeerSession.endpoint).Nodup :=
    (active_endpoints_nodup st interface peer_id settings now hwf).sublist
      (List.Sublist.map _ (List.filter_sublist _))
  have hin1 : s ∈ (appendUnique (([] : List PeerSession), ([] : List String))
      ((st.active_sessions interface peer_id settings now).filter
        (fun s => decide (now - max settings.grace_seconds 0 ≤
          s.first_seen)))).1 :=
    appendUnique_first _ _ hnodupg hmemg (by simp)
  simp only [SessionTracker.allowed_sessions]
  split
  · exact ha
  · split
    · exact ha
    · split
      · exact hin1
      · exact appendUnique_mem_left _ _ hin1

/-- The session of the C5 witness: first seen within the grace window. -/
def c5wSession : PeerSession :=
  { endpoint := "10.0.0.9:9", first_seen := 10, last_seen := 10 }

/-- A tracker holding exactly the C5 witness session. -/
def c5wTracker : SessionTracker :=
  ⟨[(("wg0", "p"), [("10.0.0.9:9", c5wSession)])]⟩

unseal List.merge List.mergeSort in
/-- C5 witness: an active in-grace session is allowed even though the limit is
already consumed. -/
theorem grace_sessions_always_allowed_w :
    c5wSession ∈ c5wTracker.allowed_sessions "wg0" "p"
      { max_concurrent := some 1, grace_seconds := 5 } 12 :=
  grace_sessions_always_allowed c5wTracker "wg0" "p"
    { max_concurrent := some 1, grace_seconds := 5 } 12 c5wSession
    (by decide) (by decide) (by decide)

/-- The settings of the C5 counterexample: a grace window far wider than the
TTL (both values valid per the data model: `ttl ≥ 1`, `grace ≥ 0`). -/
def c5Settings : PeerLimitSettings :=
  { max_concurrent := some 1, ttl_seconds := 1, grace_seconds := 100 }

/-- The C5 counterexample tracker: one session observed at time 950. -/
def c5Tracker : SessionTracker :=
  (SessionTracker.observe {} "wg0" "peer" (some "10.0.0.1:50000") (some 950)
    100 0 c5Settings 950).1

unseal List.merge List.mergeSort in
/-- C5, counterexample: at `now = 1000` the tracked session has
`first_seen = 950 ≥ now - grace_seconds = 900`, yet `allowed_sessions` is
empty because the session's `last_seen` left the TTL window — the unqualified
claim ("always in allowed_sessions") is false on this code. -/
theorem grace_session_outside_ttl_not_allowed :
    ((assocGet c5Tracker.sessions ("wg0", "peer")).getD []).map
        (fun p => p.2.first_seen) = [950] ∧
    (1000 : Int) - c5Settings.grace_seconds ≤ 950 ∧
    c5Tracker.allowed_sessions "wg0" "peer" c5Settings 1000 = [] := by decide

/-! ## C4: the limit cap -/

theorem allowed_len_aux (xs : List PeerSession) (n : Nat) :
    ((appendUnique (([] : List PeerSession), ([] : List String))
      (xs.take n)).1.length : Int) ≤ (n : Int) := by
  have h1 := appendUnique_length_le (([] : List PeerSession),
    ([] : List String)) (xs.take n)
  have h2 : (xs.take n).length ≤ n := by
    rw [List.length_take]
    omega
  simp only [List.length_nil] at h1
  omega

/-- C4 (amended): with a finite positive limit `m`, a zero grace window and no
active session first seen exactly at `now` (the boundary the counterexample
exhibits), `allowed_sessions` returns at most `m` sessions. -/
theorem allowed_sessions_length_le (st : SessionTracker)
    (interface peer_id : String) (settings : PeerLimitSettings) (now m : Int)
    (hm : settings.max_concurrent = some m) (hmpos : 0 < m)
    (hg : settings.grace_seconds = 0)
    (hfresh : ∀ s ∈ st.active_sessions interface peer_id settings now,
      s.first_seen < now) :
    ((st.allowed_sessions interface peer_id settings now).length : Int) ≤ m := by
  have hgr : (st.active_sessions interface peer_id settings now).filter
      (fun s => decide (now - max settings.grace_seconds 0 ≤ s.first_seen)) =
      [] := by
    rw [List.filter_eq_nil_iff]
    intro a ha
    have h2 := hfresh a ha
    simp only [decide_eq_true_eq, not_le, hg]
    omega
  simp only [SessionTracker.allowed_sessions, hm]
  rw [if_neg (by omega : ¬ m = 0)]
  rw [hgr]
  simp only [appendUnique, List.filter_nil, List.length_nil, Nat.cast_zero,
    sub_zero]
  rw [if_neg (by have h2 := le_max_left m 0; omega : ¬ max m 0 ≤ 0)]
  refine le_trans (allowed_len_aux _ _) ?_
  have h2 := le_max_left m 0
  omega

/-- The settings of the C4 counterexample and witness: limit 1, zero grace. -/
def c4Settings : PeerLimitSettings :=
  { max_concurrent := some 1, grace_seconds := 0 }

/-- The C4 counterexample tracker: two distinct endpoints observed at time
100. -/
def c4Tracker : SessionTracker :=
  ((SessionTracker.observe {} "wg0" "peer" (some "10.0.0.1:50000") (some 100)
      100 0 c4Settings 100).1.observe "wg0" "peer" (some "10.0.0.2:50001")
    (some 100) 200 0 c4Settings 100).1

unseal List.merge List.mergeSort in
/-- C4, counterexample: with `max_concurrent = 1` and `grace_seconds = 0`, two
sessions first seen exactly at `now` are both inside the (empty-length) grace
window, so `allowed_sessions` returns 2 > 1 sessions — the claimed bound
`len(allowed_sessions) ≤ M` is false on this code. The repository's own test
(`test_session_tracker_new_wins_policy`) asserts this very behavior. -/
theorem allowed_exceeds_limit_at_grace_boundary :
    c4Settings.max_concurrent = some 1 ∧
    (c4Tracker.allowed_sessions "wg0" "peer" c4Settings 100).length = 2 := by
  decide

/-- An older session for the C4 witness. -/
def c4wTracker : SessionTracker :=
  ⟨[(("wg0", "p"),
     [("10.0.0.1:1",
       { endpoint := "10.0.0.1:1", first_seen := 0, last_seen := 0 }),
      ("10.0.0.2:2",
       { endpoint := "10.0.0.2:2", first_seen := 5, last_seen := 5 })])]⟩

unseal List.merge List.mergeSort in
/-- C4 witness: the amended bound applied to a concrete two-session tracker
whose sessions are all strictly older than `now`. -/
theorem allowed_sessions_length_le_w :
    ((c4wTracker.allowed_sessions "wg0" "p" c4Settings 50).length : Int) ≤ 1 :=
  allowed_sessions_length_le c4wTracker "wg0" "p" c4Settings 50 1 rfl
    (by decide) rfl (by decide)

/-! ## C9: nftables element syncing -/

theorem pysetDiff_self {α : Type} [DecidableEq α] (s : PySet α) :
    pysetDiff s s = [] := by
  rw [pysetDiff, List.filter_eq_nil_iff]
  intro a ha
  simp [ha]

theorem syncSet_mem {name : String} {desired current : PySet NftElem}
    {x : NftCmd} (h : x ∈ (syncSet name desired current).1) :
    (x = NftCmd.addElement name (pysetDiff desired current) ∧
      pysetDiff desired current ≠ []) ∨
    (x = NftCmd.deleteElement name (pysetDiff current desired) ∧
      pysetDiff current desired ≠ []) := by
  unfold syncSet at h
  rcases List.mem_append.mp h with h2 | h2
  · by_cases h1 : pysetDiff desired current = []
    · rw [if_pos h1] at h2
      cases h2
    · rw [if_neg h1] at h2
      rcases List.mem_singleton.mp h2 with rfl
      exact Or.inl ⟨rfl, h1⟩
  · by_cases h1 : pysetDiff current desired = []
    · rw [if_pos h1] at h2
      cases h2
    · rw [if_neg h1] at h2
      rcases List.mem_singleton.mp h2 with rfl
      exact Or.inr ⟨rfl, h1⟩

theorem syncSet_add_mem (name : String) (desired current : PySet NftElem)
    (h : pysetDiff desired current ≠ []) :
    NftCmd.addElement name (pysetDiff desired current) ∈
      (syncSet name desired current).1 := by
  unfold syncSet
  exact List.mem_append_left _ (by rw [if_neg h]; exact List.mem_singleton.mpr rfl)

theorem syncSet_del_mem (name : String) (desired current : PySet NftElem)
    (h : pysetDiff current desired ≠ []) :
    NftCmd.deleteElement name (pysetDiff current desired) ∈
      (syncSet name desired current).1 := by
  unfold syncSet
  exact List.mem_append_right _ (by rw [if_neg h]; exact List.mem_singleton.mpr rfl)

theorem syncSet_self (name : String) (d : PySet NftElem) :
    (syncSet name d d).1 = [] := by
  unfold syncSet
  rw [pysetDiff_self]
  simp

theorem isAddFor_elemName {x : NftCmd} {n : String}
    (h : x.isAddFor n = true) : x.elemName = some n := by
  cases x <;> simp [NftCmd.isAddFor, NftCmd.elemName] at h ⊢
  exact h

theorem isDelFor_elemName {x : NftCmd} {n : String}
    (h : x.isDelFor n = true) : x.elemName = some n := by
  cases x <;> simp [NftCmd.isDelFor, NftCmd.elemName] at h ⊢
  exact h

theorem syncSet_countP_add (n name : String) (d c : PySet NftElem) :
    ((syncSet name d c).1.countP (fun x => x.isAddFor n)) ≤ 1 := by
  unfold syncSet
  by_cases h1 : pysetDiff d c = [] <;> by_cases h2 : pysetDiff c d = [] <;>
    simp [h1, h2, List.countP_cons, List.countP_nil, NftCmd.isAddFor] <;>
    split <;> simp

theorem syncSet_countP_del (n name : String) (d c : PySet NftElem) :
    ((syncSet name d c).1.countP (fun x => x.isDelFor n)) ≤ 1 := by
  unfold syncSet
  by_cases h1 : pysetDiff d c = [] <;> by_cases h2 : pysetDiff c d = [] <;>
    simp [h1, h2, List.countP_cons, List.countP_nil, NftCmd.isDelFor] <;>
    split <;> simp

theorem syncSet_countP_add_ne {n name : String} (h : n ≠ name)
    (d c : PySet NftElem) :
    ((syncSet name d c).1.countP (fun x => x.isAddFor n)) = 0 := by
  rw [List.countP_eq_zero]
  intro x hx hp
  have h2 := isAddFor_elemName hp
  rcases syncSet_mem hx with ⟨rfl, -⟩ | ⟨rfl, -⟩ <;>
    simp [NftCmd.elemName] at h2 <;> exact h h2.symm

theorem syncSet_countP_del_ne {n name : String} (h : n ≠ name)
    (d c : PySet NftElem) :
    ((syncSet name d c).1.countP (fun x => x.isDelFor n)) = 0 := by
  rw [List.countP_eq_zero]
  intro x hx hp
  have h2 := isDelFor_elemName hp
  rcases syncSet_mem hx with ⟨rfl, -⟩ | ⟨rfl, -⟩ <;>
    simp [NftCmd.elemName] at h2 <;> exact h h2.symm

theorem ensure_interface_admin (b : NftablesBackend)
    (probe : List String → Bool) (i : String) (port : Int) :
    ∀ x ∈ (b.ensure_interface probe i port).2, x.elemName = none := by
  unfold NftablesBackend.ensure_interface
  split
  · intro x hx
    cases hx
  · intro x hx
    rcases List.mem_append.mp hx with h2 | h2
    · rcases List.mem_append.mp h2 with h3 | h3
      · by_cases hp : probe ["list", "set", setNameV4 i] = true
        · rw [if_pos hp] at h3
          cases h3
        · rw [if_neg hp] at h3
          rcases List.mem_singleton.mp h3 with rfl
          rfl
      · by_cases hp : probe ["list", "set", setNameV6 i] = true
        · rw [if_pos hp] at h3
          cases h3
        · rw [if_neg hp] at h3
          rcases List.mem_singleton.mp h3 with rfl
          rfl
    · by_cases hp : probe ["list", "chain", "wggo_" ++ i] = true
      · rw [if_pos hp] at h2
        cases h2
      · rw [if_neg hp] at h2
        simp only [List.mem_cons] at h2
        rcases h2 with rfl | rfl | rfl | rfl | h4
        · rfl
        · rfl
        · rfl
        · rfl
        · cases h4

theorem ensure_interface_state (b : NftablesBackend)
    (probe : List String → Bool) (i : String) (port : Int) :
    (b.ensure_interface probe i port).1.current_v4 = b.current_v4 ∧
    (b.ensure_interface probe i port).1.current_v6 = b.current_v6 ∧
    (∀ j ∈ b.initialized, j ∈ (b.ensure_interface probe i port).1.initialized) ∧
    i ∈ (b.ensure_interface probe i port).1.initialized := by
  unfold NftablesBackend.ensure_interface
  split
  · exact ⟨rfl, rfl, fun j hj => hj, by assumption⟩
  · exact ⟨rfl, rfl, fun j hj => List.mem_append_left _ hj,
      List.mem_append_right _ (List.mem_singleton.mpr rfl)⟩

theorem setNameV4_inj {a b : String} (h : setNameV4 a = setNameV4 b) : a = b := by
  have hd := congrArg String.data h
  simp only [setNameV4, String.data_append] at hd
  exact String.ext (List.append_cancel_left (List.append_cancel_right hd))

theorem setNameV6_inj {a b : String} (h : setNameV6 a = setNameV6 b) : a = b := by
  have hd := congrArg String.data h
  simp only [setNameV6, String.data_append] at hd
  exact String.ext (List.append_cancel_left (List.append_cancel_right hd))

theorem setNameV4_ne_setNameV6 (a b : String) : setNameV4 a ≠ setNameV6 b := by
  intro h
  have hd := congrArg String.data h
  simp only [setNameV4, setNameV6, String.data_append] at hd
  have hrev := congrArg List.reverse hd
  simp only [List.reverse_append] at hrev
  rw [show ("_allowed_v4" : String).data.reverse =
      '4' :: ("v_dewolla_" : String).data from by decide] at hrev
  rw [show ("_allowed_v6" : String).data.reverse =
      '6' :: ("v_dewolla_" : String).data from by decide] at hrev
  simp at hrev

theorem syncStep_names (probe : List String → Bool) (b : NftablesBackend)
    (i : String) (plan : FirewallSyncPlan) {x : NftCmd}
    (hx : x ∈ (syncStep probe b i plan).2) {n : String}
    (hn : x.elemName = some n) :
    n = setNameV4 i ∨ n = setNameV6 i := by
  simp only [syncStep] at hx
  rcases List.mem_append.mp hx with h2 | h2
  · rcases List.mem_append.mp h2 with h3 | h3
    · rw [ensure_interface_admin b probe i plan.port x h3] at hn
      cases hn
    · rcases syncSet_mem h3 with ⟨rfl, -⟩ | ⟨rfl, -⟩ <;>
        simp only [NftCmd.elemName, Option.some.injEq] at hn <;>
        exact Or.inl hn.symm
  · rcases syncSet_mem h2 with ⟨rfl, -⟩ | ⟨rfl, -⟩ <;>
      simp only [NftCmd.elemName, Option.some.injEq] at hn <;>
      exact Or.inr hn.symm

theorem syncStep_count_add (probe : List String → Bool) (b : NftablesBackend)
    (i : String) (plan : FirewallSyncPlan) (n : String) :
    ((syncStep probe b i plan).2.countP (fun x => x.isAddFor n)) ≤ 1 := by
  simp only [syncStep, List.countP_append]
  have hE : ((b.ensure_interface probe i plan.port).2.countP
      (fun x => x.isAddFor n)) = 0 := by
    rw [List.countP_eq_zero]
    intro x hx hp
    have h2 := isAddFor_elemName hp
    rw [ensure_interface_admin b probe i plan.port x hx] at h2
    cases h2
  by_cases h4 : n = setNameV4 i
  · have h6 : n ≠ setNameV6 i := by
      rw [h4]
      exact setNameV4_ne_setNameV6 i i
    have hc4 := syncSet_countP_add n (setNameV4 i) plan.ipv4
      ((assocGet (b.ensure_interface probe i plan.port).1.current_v4 i).getD [])
    have hc6 := syncSet_countP_add_ne h6 plan.ipv6
      ((assocGet (b.ensure_interface probe i plan.port).1.current_v6 i).getD [])
    omega
  · have hc4 := syncSet_countP_add_ne h4 plan.ipv4
      ((assocGet (b.ensure_interface probe i plan.port).1.current_v4 i).getD [])
    have hc6 := syncSet_countP_add n (setNameV6 i) plan.ipv6
      ((assocGet (b.ensure_interface probe i plan.port).1.current_v6 i).getD [])
    omega

theorem syncStep_count_del (probe : List String → Bool) (b : NftablesBackend)
    (i : String) (plan : FirewallSyncPlan) (n : String) :
    ((syncStep probe b i plan).2.countP (fun x => x.isDelFor n)) ≤ 1 := by
  simp only [syncStep, List.countP_append]
  have hE : ((b.ensure_interface probe i plan.port).2.countP
      (fun x => x.isDelFor n)) = 0 := by
    rw [List.countP_eq_zero]
    intro x hx hp
    have h2 := isDelFor_elemName hp
    rw [ensure_interface_admin b probe i plan.port x hx] at h2
    cases h2
  by_cases h4 : n = setNameV4 i
  · have h6 : n ≠ setNameV6 i := by
      rw [h4]
      exact setNameV4_ne_setNameV6 i i
    have hc4 := syncSet_countP_del n (setNameV4 i) plan.ipv4
      ((assocGet (b.ensure_interface probe i plan.port).1.current_v4 i).getD [])
    have hc6 := syncSet_countP_del_ne h6 plan.ipv6
      ((assocGet (b.ensure_interface probe i plan.port).1.current_v6 i).getD [])
    omega
  · have hc4 := syncSet_countP_del_ne h4 plan.ipv4
      ((assocGet (b.ensure_interface probe i plan.port).1.current_v4 i).getD [])
    have hc6 := syncSet_countP_del n (setNameV6 i) plan.ipv6
      ((assocGet (b.ensure_interface probe i plan.port).1.current_v6 i).getD [])
    omega

theorem syncStep_count_add_zero (probe : List String → Bool)
    (b : NftablesBackend) (i : String) (plan : FirewallSyncPlan) {n : String}
    (h4 : n ≠ setNameV4 i) (h6 : n ≠ setNameV6 i) :
    ((syncStep probe b i plan).2.countP (fun x => x.isAddFor n)) = 0 := by
  rw [List.countP_eq_zero]
  intro x hx hp
  rcases syncStep_names probe b i plan hx (isAddFor_elemName hp) with h | h
  · exact h4 h
  · exact h6 h

theorem syncStep_count_del_zero (probe : List String → Bool)
    (b : NftablesBackend) (i : String) (plan : FirewallSyncPlan) {n : String}
    (h4 : n ≠ setNameV4 i) (h6 : n ≠ setNameV6 i) :
    ((syncStep probe b i plan).2.countP (fun x => x.isDelFor n)) = 0 := by
  rw [List.countP_eq_zero]
  intro x hx hp
  rcases syncStep_names probe b i plan hx (isDelFor_elemName hp) with h | h
  · exact h4 h
  · exact h6 h

theorem syncGo_count_zero (probe : List String → Bool)
    (plans : List (String × FirewallSyncPlan)) :
    ∀ (b : NftablesBackend) (n : String),
      (∀ pl ∈ plans, n ≠ setNameV4 pl.1 ∧ n ≠ setNameV6 pl.1) →
      ((syncGo probe b plans).2.countP (fun x => x.isAddFor n)) = 0 ∧
      ((syncGo probe b plans).2.countP (fun x => x.isDelFor n)) = 0 := by
  induction plans with
  | nil =>
    intro b n _
    simp [syncGo]
  | cons hd rest ih =>
    rcases hd with ⟨i, plan⟩
    intro b n hn
    obtain ⟨h4, h6⟩ := hn (i, plan) (List.mem_cons_self ..)
    have hr := ih ((syncStep probe b i plan).1) n
      (fun pl hpl => hn pl (List.mem_cons_of_mem _ hpl))
    simp only [syncGo, List.countP_append]
    rw [syncStep_count_add_zero probe b i plan h4 h6,
      syncStep_count_del_zero probe b i plan h4 h6]
    omega

theorem syncGo_counts (probe : List String → Bool)
    (plans : List (String × FirewallSyncPlan)) :
    ∀ (b : NftablesBackend) (n : String), (plans.map Prod.fst).Nodup →
      ((syncGo probe b plans).2.countP (fun x => x.isAddFor n)) ≤ 1 ∧
      ((syncGo probe b plans).2.countP (fun x => x.isDelFor n)) ≤ 1 := by
  induction plans with
  | nil =>
    intro b n _
    simp [syncGo]
  | cons hd rest ih =>
    rcases hd with ⟨i, plan⟩
    intro b n hnd
    rw [List.map_cons, List.nodup_cons] at hnd
    obtain ⟨hni, hndr⟩ := hnd
    simp only [syncGo, List.countP_append]
    by_cases hiv : n = setNameV4 i ∨ n = setNameV6 i
    · have hrest : ∀ pl ∈ rest, n ≠ setNameV4 pl.1 ∧ n ≠ setNameV6 pl.1 := by
        intro pl hpl
        have hne : pl.1 ≠ i := by
          intro he
          have h9 : pl.1 ∈ rest.map Prod.fst := List.mem_map_of_mem Prod.fst hpl
          rw [he] at h9
          exact hni h9
        rcases hiv with rfl | rfl
        · constructor
          · intro h
            exact hne (setNameV4_inj h).symm
          · intro h
            exact absurd h (setNameV4_ne_setNameV6 i pl.1)
        · constructor
          · intro h
            exact absurd h.symm (setNameV4_ne_setNameV6 pl.1 i)
          · intro h
            exact hne (setNameV6_inj h).symm
      have hz := syncGo_count_zero probe rest ((syncStep probe b i plan).1) n
        hrest
      have ha := syncStep_count_add probe b i plan n
      have hd := syncStep_count_del probe b i plan n
      omega
    · push_neg at hiv
      have hz4 := syncStep_count_add_zero probe b i plan hiv.1 hiv.2
      have hz6 := syncStep_count_del_zero probe b i plan hiv.1 hiv.2
      have hr := ih ((syncStep probe b i plan).1) n hndr
      omega

theorem syncStep_state (probe : List String → Bool) (b : NftablesBackend)
    (i : String) (plan : FirewallSyncPlan) :
    (syncStep probe b i plan).1.current_v4 =
      assocSet b.current_v4 i plan.ipv4 ∧
    (syncStep probe b i plan).1.current_v6 =
      assocSet b.current_v6 i plan.ipv6 ∧
    (∀ j ∈ b.initialized, j ∈ (syncStep probe b i plan).1.initialized) ∧
    i ∈ (syncStep probe b i plan).1.initialized := by
  obtain ⟨h4, h6, hmono, hmem⟩ := ensure_interface_state b probe i plan.port
  simp only [syncStep]
  refine ⟨?_, ?_, ?_, ?_⟩
  · rw [h4]
    rfl
  · rw [h6]
    rfl
  · intro j hj
    exact hmono j hj
  · exact hmem

theorem syncGo_preserve (probe : List String → Bool)
    (plans : List (String × FirewallSyncPlan)) :
    ∀ (b : NftablesBackend) {i : String}, i ∉ plans.map Prod.fst →
      assocGet (syncGo probe b plans).1.current_v4 i =
        assocGet b.current_v4 i ∧
      assocGet (syncGo probe b plans).1.current_v6 i =
        assocGet b.current_v6 i ∧
      (i ∈ b.initialized → i ∈ (syncGo probe b plans).1.initialized) := by
  induction plans with
  | nil =>
    intro b i _
    exact ⟨rfl, rfl, fun h => h⟩
  | cons hd rest ih =>
    rcases hd with ⟨j, plan⟩
    intro b i hni
    rw [List.map_cons] at hni
    simp only [List.mem_cons, not_or] at hni
    obtain ⟨hij, hrest⟩ := hni
    simp only [syncGo]
    obtain ⟨h4, h6, hmono⟩ := ih ((syncStep probe b j plan).1) hrest
    obtain ⟨hs4, hs6, hsmono, -⟩ := syncStep_state probe b j plan
    refine ⟨?_, ?_, ?_⟩
    · rw [h4, hs4, assocGet_assocSet_ne _ _ (fun he => hij he.symm)]
    · rw [h6, hs6, assocGet_assocSet_ne _ _ (fun he => hij he.symm)]
    · intro hb
      exact hmono (hsmono i hb)

theorem syncGo_after (probe : List String → Bool)
    (plans : List (String × FirewallSyncPlan)) :
    ∀ (b : NftablesBackend), (plans.map Prod.fst).Nodup →
      ∀ pl ∈ plans,
        (assocGet (syncGo probe b plans).1.current_v4 pl.1).getD [] =
          pl.2.ipv4 ∧
        (assocGet (syncGo probe b plans).1.current_v6 pl.1).getD [] =
          pl.2.ipv6 ∧
        pl.1 ∈ (syncGo probe b plans).1.initialized := by
  induction plans with
  | nil =>
    intro b _ pl hpl
    cases hpl
  | cons hd rest ih =>
    rcases hd with ⟨i, plan⟩
    intro b hnd pl hpl
    rw [List.map_cons, List.nodup_cons] at hnd
    obtain ⟨hni, hndr⟩ := hnd
    simp only [syncGo]
    rcases List.mem_cons.mp hpl with rfl | hpl2
    · obtain ⟨hp4, hp6, hpi⟩ :=
        syncGo_preserve probe rest ((syncStep probe b i plan).1) hni
      obtain ⟨hs4, hs6, -, hsi⟩ := syncStep_state probe b i plan
      refine ⟨?_, ?_, hpi hsi⟩
      · rw [hp4, hs4, assocGet_assocSet]
        rfl
      · rw [hp6, hs6, assocGet_assocSet]
        rfl
    · exact ih _ hndr pl hpl2

theorem syncGo_noop (probe : List String → Bool)
    (plans : List (String × FirewallSyncPlan)) :
    ∀ (b : NftablesBackend), (plans.map Prod.fst).Nodup →
      (∀ pl ∈ plans,
        (assocGet b.current_v4 pl.1).getD [] = pl.2.ipv4 ∧
        (assocGet b.current_v6 pl.1).getD [] = pl.2.ipv6 ∧
        pl.1 ∈ b.initialized) →
      (syncGo probe b plans).2 = [] := by
  induction plans with
  | nil =>
    intro b _ _
    rfl
  | cons hd rest ih =>
    rcases hd with ⟨i, plan⟩
    intro b hnd hcur
    rw [List.map_cons, List.nodup_cons] at hnd
    obtain ⟨hni, hndr⟩ := hnd
    obtain ⟨h4, h6, hinit⟩ := hcur (i, plan) (List.mem_cons_self ..)
    have hens : b.ensure_interface probe i plan.port = (b, []) := by
      unfold NftablesBackend.ensure_interface
      rw [if_pos hinit]
    have hstep : (syncStep probe b i plan).2 = [] := by
      simp only [syncStep, hens, h4, h6, syncSet_self]
      rfl
    obtain ⟨hs4, hs6, hsmono, -⟩ := syncStep_state probe b i plan
    have hrest : ∀ pl ∈ rest,
        (assocGet (syncStep probe b i plan).1.current_v4 pl.1).getD [] =
          pl.2.ipv4 ∧
        (assocGet (syncStep probe b i plan).1.current_v6 pl.1).getD [] =
          pl.2.ipv6 ∧
        pl.1 ∈ (syncStep probe b i plan).1.initialized := by
      intro pl hpl
      obtain ⟨g4, g6, gi⟩ := hcur pl (List.mem_cons_of_mem _ hpl)
      have hne : i ≠ pl.1 := by
        intro he
        have h9 : pl.1 ∈ rest.map Prod.fst := List.mem_map_of_mem Prod.fst hpl
        rw [← he] at h9
        exact hni h9
      refine ⟨?_, ?_, hsmono pl.1 gi⟩
      · rw [hs4, assocGet_assocSet_ne _ _ hne]
        exact g4
      · rw [hs6, assocGet_assocSet_ne _ _ hne]
        exact g6
    have htail := ih ((syncStep probe b i plan).1) hndr hrest
    simp only [syncGo]
    rw [hstep, htail]
    rfl

/-- C9: `_sync_set` emits at most one `add element` and one `delete element`
command per call, carrying exactly `desired - current` and `current - desired`
respectively, and a command is present exactly when its diff is nonempty; at
the `sync` level, with distinct plan keys (as in a Python dict), every set
name sees at most one add-element and one delete-element command per
iteration; and calling `sync` a second time with the same plans, after the
first call updated the remembered current sets, emits no commands at all. -/
theorem nftables_sync_minimal_diff :
    (∀ (name : String) (desired current : PySet NftElem),
      (∀ x ∈ (syncSet name desired current).1,
        (x = NftCmd.addElement name (pysetDiff desired current) ∧
          pysetDiff desired current ≠ []) ∨
        (x = NftCmd.deleteElement name (pysetDiff current desired) ∧
          pysetDiff current desired ≠ [])) ∧
      (pysetDiff desired current ≠ [] →
        NftCmd.addElement name (pysetDiff desired current) ∈
          (syncSet name desired current).1) ∧
      (pysetDiff current desired ≠ [] →
        NftCmd.deleteElement name (pysetDiff current desired) ∈
          (syncSet name desired current).1)) ∧
    (∀ (probe : List String → Bool) (b : NftablesBackend)
      (plans : List (String × FirewallSyncPlan)) (n : String),
      (plans.map Prod.fst).Nodup →
      ((b.sync probe plans).2.countP (fun x => x.isAddFor n)) ≤ 1 ∧
      ((b.sync probe plans).2.countP (fun x => x.isDelFor n)) ≤ 1) ∧
    (∀ (probe : List String → Bool) (b : NftablesBackend)
      (plans : List (String × FirewallSyncPlan)),
      (plans.map Prod.fst).Nodup →
      (((b.sync probe plans).1).sync probe plans).2 = []) := by
  refine ⟨?_, ?_, ?_⟩
  · intro name desired current
    exact ⟨fun x hx => syncSet_mem hx, syncSet_add_mem name desired current,
      syncSet_del_mem name desired current⟩
  · intro probe b plans n hnd
    exact syncGo_counts probe plans b n hnd
  · intro probe b plans hnd
    exact syncGo_noop probe plans _ hnd (syncGo_after probe plans b hnd)

/-- The plan used by the C9 witness (the S5 scenario shape). -/
def c9Plan : FirewallSyncPlan :=
  { ipv4 := [("10.0.0.1", 1111)], ipv6 := [], port := 7 }

/-- The probe of the C9 witness: the firewall reports every object present. -/
def c9Probe : List String → Bool := fun _ => true

/-- C9 witness: the sync bounds and the second-call silence at a concrete
backend and plan. -/
theorem nftables_sync_minimal_diff_w :
    (((NftablesBackend.sync {} c9Probe [("wg0", c9Plan)]).2.countP
        (fun x => x.isAddFor (setNameV4 "wg0"))) ≤ 1 ∧
      ((NftablesBackend.sync {} c9Probe [("wg0", c9Plan)]).2.countP
        (fun x => x.isDelFor (setNameV4 "wg0"))) ≤ 1) ∧
    (((NftablesBackend.sync {} c9Probe [("wg0", c9Plan)]).1).sync c9Probe
        [("wg0", c9Plan)]).2 = [] :=
  ⟨nftables_sync_minimal_diff.2.1 c9Probe {} [("wg0", c9Plan)]
      (setNameV4 "wg0") (by decide),
    nftables_sync_minimal_diff.2.2 c9Probe {} [("wg0", c9Plan)] (by decide)⟩

/-! ## Well-formedness is preserved by the tracker operations, so the
`TrackerWF` hypotheses of the theorems above hold on every reachable state. -/

theorem assocSet_keys {κ α : Type} [DecidableEq κ] (l : List (κ × α)) (k : κ)
    (v : α) :
    ∀ j ∈ (assocSet l k v).map Prod.fst, j ∈ l.map Prod.fst ∨ j = k := by
  induction l with
  | nil =>
    intro j hj
    simp only [assocSet, List.map_cons, List.map_nil, List.mem_singleton] at hj
    exact Or.inr hj
  | cons p rest ih =>
    obtain ⟨k0, v0⟩ := p
    intro j hj
    unfold assocSet at hj
    by_cases hk : k0 = k
    · rw [if_pos hk] at hj
      simp only [List.map_cons, List.mem_cons] at hj ⊢
      rcases hj with rfl | hj
      · exact Or.inl (Or.inl rfl)
      · exact Or.inl (Or.inr hj)
    · rw [if_neg hk] at hj
      simp only [List.map_cons, List.mem_cons] at hj ⊢
      rcases hj with rfl | hj
      · exact Or.inl (Or.inl rfl)
      · rcases ih j hj with h2 | h2
        · exact Or.inl (Or.inr h2)
        · exact Or.inr h2

theorem assocSet_nodup {κ α : Type} [DecidableEq κ] {l : List (κ × α)}
    (k : κ) (v : α) (h : (l.map Prod.fst).Nodup) :
    ((assocSet l k v).map Prod.fst).Nodup := by
  induction l with
  | nil => simp [assocSet]
  | cons p rest ih =>
    obtain ⟨k0, v0⟩ := p
    rw [List.map_cons, List.nodup_cons] at h
    unfold assocSet
    by_cases hk : k0 = k
    · rw [if_pos hk]
      rw [List.map_cons, List.nodup_cons]
      exact h
    · rw [if_neg hk]
      rw [List.map_cons, List.nodup_cons]
      refine ⟨?_, ih h.2⟩
      intro hmem
      rcases assocSet_keys rest k v k0 hmem with h2 | h2
      · exact h.1 h2
      · exact hk h2

theorem assocSet_values {κ α : Type} [DecidableEq κ] {l : List (κ × α)}
    {k : κ} {v : α} {p : κ × α} (hp : p ∈ assocSet l k v) :
    p ∈ l ∨ p = (k, v) := by
  induction l with
  | nil =>
    simp only [assocSet, List.mem_singleton] at hp
    exact Or.inr hp
  | cons q rest ih =>
    obtain ⟨k0, v0⟩ := q
    unfold assocSet at hp
    by_cases hk : k0 = k
    · rw [if_pos hk] at hp
      rcases List.mem_cons.mp hp with rfl | h2
      · subst hk
        exact Or.inr rfl
      · exact Or.inl (List.mem_cons_of_mem _ h2)
    · rw [if_neg hk] at hp
      rcases List.mem_cons.mp hp with rfl | h2
      · exact Or.inl (List.mem_cons_self ..)
      · rcases ih h2 with h3 | h3
        · exact Or.inl (List.mem_cons_of_mem _ h3)
        · exact Or.inr h3

theorem assocPop_sublist {κ α : Type} [DecidableEq κ] (l : List (κ × α))
    (k : κ) : List.Sublist (assocPop l k) l := by
  induction l with
  | nil => exact List.Sublist.refl _
  | cons p rest ih =>
    obtain ⟨k0, v0⟩ := p
    unfold assocPop
    by_cases hk : k0 = k
    · rw [if_pos hk]
      exact List.sublist_cons_self ..
    · rw [if_neg hk]
      exact ih.cons₂ _

theorem DictWF_filter (d : SessionDict) (q : String × PeerSession → Bool)
    (h : DictWF d) : DictWF (d.filter q) :=
  ⟨h.1.sublist (List.Sublist.map _ (List.filter_sublist _)),
    fun p hp => h.2 p (List.mem_of_mem_filter hp)⟩

theorem expire_WF (st : SessionTracker) (key : String × String)
    (ttl now : Int) (h : TrackerWF st) : TrackerWF (st.expire key ttl now) := by
  simp only [SessionTracker.expire]
  split
  · exact h
  · rename_i d heq
    have hdwf : DictWF d := h.2 _ (assocGet_mem heq)
    split
    · exact h
    · split
      · refine ⟨h.1.sublist (List.Sublist.map _ (assocPop_sublist ..)), ?_⟩
        intro q hq
        exact h.2 q ((assocPop_sublist ..).subset hq)
      · refine ⟨assocSet_nodup _ _ h.1, ?_⟩
        intro q hq
        rcases assocSet_values hq with h2 | h2
        · exact h.2 q h2
        · rw [h2]
          exact DictWF_filter d _ hdwf

/-- `observe` preserves tracker well-formedness: the dictionaries keep unique
endpoint keys and every stored session is keyed by its own endpoint. -/
theorem observe_WF (st : SessionTracker) (interface peer_id : String)
    (endpoint : Option String) (latest_handshake : Option Int)
    (rx_bytes tx_bytes : Int) (settings : PeerLimitSettings) (now : Int)
    (h : TrackerWF st) :
    TrackerWF (st.observe interface peer_id endpoint latest_handshake rx_bytes
      tx_bytes settings now).1 := by
  have h1 := expire_WF st (interface, peer_id) settings.ttl_seconds now h
  have hdwf : DictWF ((assocGet (st.expire (interface, peer_id)
      settings.ttl_seconds now).sessions (interface, peer_id)).getD []) := by
    rcases hget : assocGet (st.expire (interface, peer_id)
        settings.ttl_seconds now).sessions (interface, peer_id) with _ | d
    · exact ⟨List.nodup_nil, by intro p hp; cases hp⟩
    · exact h1.2 _ (assocGet_mem hget)
  simp only [SessionTracker.observe]
  refine ⟨assocSet_nodup _ _ h1.1, ?_⟩
  intro q hq
  rcases assocSet_values hq with h2 | h2
  · exact h1.2 q h2
  · rw [h2]
    split
    · split
      · rename_i existing heq
        refine ⟨assocSet_nodup _ _ hdwf.1, ?_⟩
        intro p hp
        rcases assocSet_values hp with h3 | h3
        · exact hdwf.2 p h3
        · rw [h3]
          have h4 := hdwf.2 _ (assocGet_mem heq)
          exact h4
      · refine ⟨assocSet_nodup _ _ hdwf.1, ?_⟩
        intro p hp
        rcases assocSet_values hp with h3 | h3
        · exact hdwf.2 p h3
        · rw [h3]
    · exact hdwf

/-! ## C1: the firewall plan versus the allowed set -/

/-- The settings of the C1 scenario: limit 1, `new_wins`, no grace. -/
def c1Settings : PeerLimitSettings :=
  { max_concurrent := some 1, policy := .NEW_WINS, grace_seconds := 0 }

/-- The C1 tracker: endpoint A observed at t=0, endpoint B at t=10. -/
def c1Tracker : SessionTracker :=
  ((SessionTracker.observe {} "wg0" "peer" (some "10.0.0.1:50000") (some 1)
      100 0 c1Settings 0).1.observe "wg0" "peer" (some "10.0.0.2:50001")
    (some 10) 200 0 c1Settings 10).1

/-- The per-peer iteration body run on the C1 tracker at t=20, observing
endpoint B again with fresh traffic. -/
def c1Run : SessionTracker × FirewallSyncPlan × List SessionRecord × Bool :=
  processPeer c1Tracker ⟨[], [], 51820⟩ "wg0" "peer" (some "10.0.0.2:50001")
    (some 20) 300 0 c1Settings 20

unseal List.merge List.mergeSort in
/-- C1: the claim (echoing the spec's key invariant) says a session's parsed
endpoint enters the `FirewallSyncPlan` only if the session is in the allowed
set, while every active session is persisted with `IsAllowed` equal to
allowed-set membership. The loop body (lines 333-352) consults the allowed set
only for the `IsAllowed` flag and adds EVERY parsable active endpoint to the
plan. At this input, session `10.0.0.1:50000` is active but not allowed
(limit 1, `new_wins`): its record carries `IsAllowed = false`, yet its
endpoint sits in the plan's v4 bucket — so the code contradicts the claim,
and (since it defeats the limiter's entire purpose and the explicitly stated
invariant) the code, not the claim, is wrong. -/
theorem iteration_plans_denied_endpoint :
    (("10.0.0.1", (50000 : Int)) ∈ c1Run.2.1.ipv4) ∧
    (∃ r ∈ c1Run.2.2.1, r.Endpoint = "10.0.0.1:50000" ∧
      r.IsAllowed = false) ∧
    ("10.0.0.1:50000" ∉
      (c1Run.1.allowed_sessions "wg0" "peer" c1Settings 20).map
        PeerSession.endpoint) := by
  decide

end WGGo
